import Mathlib

/-!
Verification of the GFS semantic filesystem (danieleds/GFS).

Shallow embedding of the core data structures and operations of the
repository, translated from the Python sources:

* `semanticfs/pathinfo.py`   — virtual-path classification (`PathInfo`)
* `semanticfs/fs.py`         — the datastore mapper `_datastore_path` and
                               the `rmdir`-over-a-tag implementation `_rmdir_tag`
* `semanticfs/graph.py`      — the tag graph (`Graph`)
* `semanticfs/filestagsassociation.py` — the file→tagset map (`FilesTagsAssociation`)
* `semanticfs/ghostfile.py`  — the interval-tree write buffer (`GhostFile`)

Modelling conventions:

* Python `dict`s become association lists (`List (key × value)`); the
  operations `d[k]`, `d[k] = v`, `del d[k]`, `d.pop(k)` and key membership
  are modelled by `dictGet`, `dictSet`, `dictDel` and `dictMem` below.
  Insertion order is preserved, as in Python 3 dicts.
* Python `set`s of strings become lists; `add`, `discard` and membership
  are `setAdd`, `setDiscard` and `List.contains`.  States built by the
  modelled operations never carry duplicates.
* Byte strings become `List Nat` (one `Nat` per byte); paths are split
  into their component lists (the model works on the output of Python's
  `os.path.normpath(...).split(os.sep)` with `os.sep = "/"`;
  `os.path.normcase` is the identity on POSIX).
* Functions that can raise return `Option`: `none` models the raised
  exception (`ValueError` / `KeyError`).  Plain `assert` statements are
  *checks*, not behaviour (they disappear under `python -O`): they are
  modelled as separate predicates on the state and verified or refuted
  as such, never as `none` results.
-/

namespace GFS

/-- Python's `name.startswith(PathInfo.SEMANTIC_PREFIX)` with
`SEMANTIC_PREFIX = '_'` (`pathinfo.py`, `is_semantic_name`): true iff the
first character of the name is the underscore. -/
def isSemanticName (name : String) : Bool :=
  match name.data with
  | [] => false
  | c :: _ => c == '_'

/-- `os.sep.join` on POSIX. -/
def joinSep (cs : List String) : String :=
  String.intercalate "/" cs

/-! ### Python dict / set primitives -/

/-- Key membership `k in d` for a Python dict modelled as an association list. -/
def dictMem (d : List (String × α)) (k : String) : Bool :=
  d.any (fun p => p.1 == k)

/-- Lookup `d[k]`, as an `Option` (`none` models the `KeyError`). -/
def dictGet (d : List (String × α)) (k : String) : Option α :=
  (d.find? (fun p => p.1 == k)).map (fun p => p.2)

/-- Assignment `d[k] = v`: replaces the value of an existing key in place,
otherwise appends the new key (Python 3 dicts keep insertion order). -/
def dictSet (d : List (String × α)) (k : String) (v : α) : List (String × α) :=
  if dictMem d k then d.map (fun p => if p.1 == k then (p.1, v) else p)
  else d ++ [(k, v)]

/-- Deletion `del d[k]` / `d.pop(k)` (the lookup part of `pop` is `dictGet`). -/
def dictDel (d : List (String × α)) (k : String) : List (String × α) :=
  d.filter (fun p => p.1 != k)

/-- In-place mutation of the value stored at `k` (`d[k].add(...)` etc.). -/
def dictModify (d : List (String × α)) (k : String) (f : α → α) : List (String × α) :=
  d.map (fun p => if p.1 == k then (p.1, f p.2) else p)

/-- Python `set.add`. -/
def setAdd (s : List String) (x : String) : List String :=
  if s.contains x then s else s ++ [x]

/-- Python `set.discard`. -/
def setDiscard (s : List String) (x : String) : List String :=
  s.filter (fun y => y != x)

/-! ### PathInfo (`semanticfs/pathinfo.py`)

`PathInfo.__init__` normalizes the path and splits it into components;
everything after that point is a function of the component list, which is
what the model takes as input. -/

structure PathInfoT where
  entrypoint : String
  tags : List String
  file : String
deriving DecidableEq, Repr

/-- The index produced by
`next((i for i, name in reversed(list(enumerate(components))) if not is_semantic_name(name)), -1)`:
the largest index whose component is not semantic, `none` for Python's `-1`. -/
def lastNonSemIdx (cs : List String) : Option Nat :=
  (cs.reverse.findIdx? (fun s => !isSemanticName s)).map (fun j => cs.length - 1 - j)

/-- `last_nonsemantic_idx + 2`, i.e. the number of leading components kept in
the entry point (`1` when the index is Python's `-1`). -/
def keepCount (cs : List String) : Nat :=
  match lastNonSemIdx cs with
  | some i => i + 2
  | none => 1

/-- `PathInfo.__init__` (`pathinfo.py` lines 7–36) on the component list of the
normalized path: computes the `entrypoint`, `tags` and `file` fields.  The
constructor raises nothing: every component list yields a `PathInfoT`. -/
def pathInfoOfComponents (cs : List String) : PathInfoT :=
  match cs.getLast? with
  | none => { entrypoint := "", tags := [], file := "" }
  | some last =>
    if isSemanticName last then
      -- /a/_b/_c
      let k := keepCount cs
      { entrypoint := joinSep (cs.take k), tags := cs.drop k, file := "" }
    else if (cs.dropLast.getLast?.map isSemanticName).getD false then
      -- /a/_b/c
      let front := cs.dropLast
      let k := keepCount front
      { entrypoint := joinSep (front.take k), tags := front.drop k, file := last }
    else
      { entrypoint := "", tags := [], file := "" }

/-- `PathInfo.is_tag`. -/
def PathInfoT.isTag (p : PathInfoT) : Bool :=
  (p.entrypoint != "") && (p.tags.length != 0) && (p.file == "")

/-- `PathInfo.is_entrypoint`. -/
def PathInfoT.isEntrypoint (p : PathInfoT) : Bool :=
  (p.entrypoint != "") && (p.tags.length == 0) && (p.file == "")

/-- `PathInfo.is_tagged_object`. -/
def PathInfoT.isTaggedObject (p : PathInfoT) : Bool :=
  (p.entrypoint != "") && (p.file != "")

/-- `PathInfo.is_standard_object`. -/
def PathInfoT.isStandardObject (p : PathInfoT) : Bool :=
  !p.isEntrypoint && !p.isTag && !p.isTaggedObject

/-- The number of the four kind predicates that hold of a `PathInfoT`. -/
def kindCount (p : PathInfoT) : Nat :=
  [p.isStandardObject, p.isEntrypoint, p.isTag, p.isTaggedObject].count true

/-! ### Datastore mapper (`SemanticFS._datastore_path`, `fs.py` lines 40–80)

The loop body: components with index `0` and `1` are always kept; from
index `2` on, if the two most recently kept components are both semantic,
the more recent one is dropped before the next component is appended.
The accumulator is kept reversed (head = most recently kept component =
Python's `tmppath[-1]`).  The index guard `i == 0 or i == 1` coincides
with the accumulator holding fewer than two components: at every step
with `i ≥ 2` the accumulator has length ≥ 2. -/

def dsPush (acc : List String) (name : String) : List String :=
  match acc with
  | x :: y :: t =>
    if isSemanticName y && isSemanticName x then name :: y :: t
    else name :: x :: y :: t
  | _ => name :: acc

/-- The component-rewriting part of `_datastore_path`: the final `tmppath`
list (before root stripping and joining under the datastore root). -/
def datastoreComponents (cs : List String) : List String :=
  (cs.foldl dsPush []).reverse

/-- The physical path produced by `_datastore_path` for an absolute virtual
path with component list `cs` (head `""`), joined under the datastore root:
the leading separator of the rewritten path is stripped and the result is
joined to `dsroot`. -/
def datastorePath (dsroot : String) (cs : List String) : String :=
  dsroot ++ "/" ++ joinSep (datastoreComponents cs).tail

/-! ### Tag graph (`semanticfs/graph.py`)

Two Python dicts mapping a node name to its out- resp. in-adjacency set. -/

structure Graph where
  adjOut : List (String × List String)
  adjIn : List (String × List String)
deriving DecidableEq, Repr

/-- The empty graph produced by `Graph.__init__`. -/
def emptyGraph : Graph := { adjOut := [], adjIn := [] }

/-- Return value of `Graph.has_node` (`name in self._adjacency_out`; the
assert inside compares this with membership in `_adjacency_in` and is dealt
with by `keySyncB` below). -/
def hasNodeB (g : Graph) (name : String) : Bool :=
  dictMem g.adjOut name

/-- Return value of `Graph.has_arc`
(`to_node in self._adjacency_out[from_node]`); the lookup is total here, a
missing key yields the empty set (`has_arc` is only ever called on nodes). -/
def hasArcB (g : Graph) (fromNode toNode : String) : Bool :=
  ((dictGet g.adjOut fromNode).getD []).contains toNode

/-- The in-adjacency side of the assert of `Graph.has_arc`
(`from_node in self._adjacency_in[to_node]`). -/
def hasArcInB (g : Graph) (fromNode toNode : String) : Bool :=
  ((dictGet g.adjIn toNode).getD []).contains fromNode

/-- `Graph.add_node`: `none` models the `ValueError('Node exists')`. -/
def addNode (g : Graph) (name : String) : Option Graph :=
  if dictMem g.adjOut name then none
  else some { adjOut := dictSet g.adjOut name [], adjIn := dictSet g.adjIn name [] }

/-- `Graph.remove_node`: `none` models the `ValueError('Node is missing')`.
Note that the two `del` statements remove only the node's own entries;
occurrences of `name` inside other nodes' adjacency sets are left behind. -/
def removeNode (g : Graph) (name : String) : Option Graph :=
  if !hasNodeB g name then none
  else some { adjOut := dictDel g.adjOut name, adjIn := dictDel g.adjIn name }

/-- `Graph.rename_node`: pops `old` from both dicts, re-inserts its sets
under `new`, and then, for every adjacency set of both dicts (including the
ones just inserted), executes `nodes.discard(old); nodes.add(new)`.  The
`add(new)` is unconditional in the source: it runs on every set, not only
on the sets that contained `old`. -/
def renameNode (g : Graph) (old new : String) : Option Graph :=
  if !hasNodeB g old then none
  else if hasNodeB g new then none
  else
    let inSet := (dictGet g.adjIn old).getD []
    let outSet := (dictGet g.adjOut old).getD []
    let adjIn1 := dictSet (dictDel g.adjIn old) new inSet
    let adjOut1 := dictSet (dictDel g.adjOut old) new outSet
    some { adjOut := adjOut1.map (fun p => (p.1, setAdd (setDiscard p.2 old) new)),
           adjIn := adjIn1.map (fun p => (p.1, setAdd (setDiscard p.2 old) new)) }

/-- `Graph.add_arc`: `none` models the `ValueError('Node is missing')`. -/
def addArc (g : Graph) (fromNode toNode : String) : Option Graph :=
  if !(hasNodeB g fromNode && hasNodeB g toNode) then none
  else some { adjOut := dictModify g.adjOut fromNode (fun s => setAdd s toNode),
              adjIn := dictModify g.adjIn toNode (fun s => setAdd s fromNode) }

/-- `Graph.remove_arc`: `none` models the `ValueError('Node is missing')` as
well as the `KeyError` raised by `set.remove` when either endpoint set does
not record the arc. -/
def removeArc (g : Graph) (fromNode toNode : String) : Option Graph :=
  if !(hasNodeB g fromNode && hasNodeB g toNode) then none
  else if !(hasArcB g fromNode toNode) then none
  else if !(hasArcInB g fromNode toNode) then none
  else some { adjOut := dictModify g.adjOut fromNode (fun s => s.filter (fun y => y != toNode)),
              adjIn := dictModify g.adjIn toNode (fun s => s.filter (fun y => y != fromNode)) }

/-- `Graph.has_path`, tail of the loop: `prev` is the previously visited
element, already known to be a node. -/
def hasPathFrom (g : Graph) (prev : String) : List String → Bool
  | [] => true
  | n :: rest =>
    if hasNodeB g n then
      if hasArcB g prev n then hasPathFrom g n rest else false
    else false

/-- `Graph.has_path` (`graph.py` lines 65–74): iterates over the sequence;
a missing node or a missing consecutive arc yields `False`; the empty
sequence yields `True`. -/
def hasPath (g : Graph) : List String → Bool
  | [] => true
  | n :: rest => if hasNodeB g n then hasPathFrom g n rest else false

/-! Representation invariant of `Graph` (the claims C9 is about).  All three
parts are stated as bounded boolean checks over the entries of the two
dicts; `keySyncIff`, `closureIff` and `pairSyncIff` below relate them to
the unbounded formulations. -/

/-- A name is a key of `_adjacency_out` iff it is a key of `_adjacency_in`
(the assert of `has_node`). -/
def keySyncB (g : Graph) : Bool :=
  g.adjOut.all (fun p => dictMem g.adjIn p.1) && g.adjIn.all (fun p => dictMem g.adjOut p.1)

/-- Every member of any adjacency set of either dict is itself a node. -/
def closureB (g : Graph) : Bool :=
  g.adjOut.all (fun p => p.2.all (fun x => hasNodeB g x)) &&
    g.adjIn.all (fun p => p.2.all (fun x => hasNodeB g x))

/-- `to_node ∈ out[from_node]` iff `from_node ∈ in[to_node]` (the assert of
`has_arc`), bounded over the recorded keys and memberships of both dicts. -/
def pairSyncB (g : Graph) : Bool :=
  g.adjOut.all (fun p => ((dictGet g.adjOut p.1).getD []).all (fun b => hasArcInB g p.1 b)) &&
    g.adjIn.all (fun p => ((dictGet g.adjIn p.1).getD []).all (fun a => hasArcB g a p.1))

/-- The full representation invariant. -/
def graphInv (g : Graph) : Bool :=
  keySyncB g && closureB g && pairSyncB g

/-- Unbounded form of `keySyncB`. -/
def keySyncP (g : Graph) : Prop :=
  ∀ k, dictMem g.adjOut k = true ↔ dictMem g.adjIn k = true

/-- Unbounded form of `closureB`. -/
def closureP (g : Graph) : Prop :=
  (∀ p ∈ g.adjOut, ∀ x ∈ p.2, hasNodeB g x = true) ∧
    (∀ p ∈ g.adjIn, ∀ x ∈ p.2, hasNodeB g x = true)

/-- Unbounded form of `pairSyncB`. -/
def pairSyncP (g : Graph) : Prop :=
  ∀ a b, (hasArcB g a b = true ↔ hasArcInB g a b = true)

/-! ### File→tagset map (`semanticfs/filestagsassociation.py`)

A single Python dict `self._files` mapping a filename to its set of tags. -/

/-- `FilesTagsAssociation.rename_tag`: for *every* file's tagset, executes
`filetags.discard(old); filetags.add(new)`.  As in `Graph.rename_node`, the
`add(new)` is unconditional: it also runs on tagsets that never contained
`old`. -/
def renameTag (files : List (String × List String)) (old new : String) :
    List (String × List String) :=
  files.map (fun p => (p.1, setAdd (setDiscard p.2 old) new))

/-- `FilesTagsAssociation.tagged_files` (lines 95–100): the filenames whose
tagset is a superset of the given collection of tags, in dict order. -/
def taggedFiles (files : List (String × List String)) (tags : List String) :
    List String :=
  files.filterMap (fun p => if tags.all (fun t => p.2.contains t) then some p.1 else none)

/-- `FilesTagsAssociation.discard_tag` for a filename known to be present
(`_rmdir_tag` only calls it on keys of the dict, so the `ValueError` for a
missing file cannot trigger there). -/
def discardTag (files : List (String × List String)) (filename tag : String) :
    List (String × List String) :=
  dictModify files filename (fun s => setDiscard s tag)

/-- Python iterates a *string* passed where a collection of tags is
expected (`set.issuperset(str)`), yielding its characters as one-character
strings. -/
def stringAsTags (s : String) : List String :=
  s.data.map (fun c => String.mk [c])

/-- `SemanticFS._rmdir_tag` (`fs.py` lines 434–453) in the chain-length-1
case, metadata part (the physical `os.rmdir` acts on the host file system
and is outside the model): removes the tag's node from the graph, then
iterates over `tagged_files(path.tags[-1])` — note that the argument is the
tag *string*, which Python iterates character by character — discarding the
tag from each returned file. -/
def rmdirTagRoot (g : Graph) (files : List (String × List String)) (tag : String) :
    Option (Graph × List (String × List String)) :=
  match removeNode g tag with
  | none => none
  | some g2 =>
    some (g2, (taggedFiles files (stringAsTags tag)).foldl
      (fun fs f => discardTag fs f tag) files)

/-! ### Ghost file (`semanticfs/ghostfile.py`)

The rewritten-interval tree is a collection of half-open intervals
`[begin, end)` of byte offsets, modelled as a list of pairs.  Bytes are
`Nat`s; the physical file is a `List Nat`. -/

/-- `tree[p]`: the interval of the tree containing the point `p`, if any
(the tree never holds more than one, as the source asserts). -/
def pointQuery (t : List (Nat × Nat)) (p : Nat) : Option (Nat × Nat) :=
  t.find? (fun i => decide (i.1 ≤ p) && decide (p < i.2))

/-- `tree.chop(a, b)`: removes everything between `a` and `b`, trimming
intervals that stick out of the range. -/
def chop (t : List (Nat × Nat)) (a b : Nat) : List (Nat × Nat) :=
  t.foldr
    (fun i acc =>
      (if i.1 < a then [(i.1, min i.2 a)] else []) ++
        (if b < i.2 then [(max i.1 b, i.2)] else []) ++ acc)
    []

/-- `tree.end()`: the maximum right endpoint, `0` for the empty tree. -/
def treeEnd (t : List (Nat × Nat)) : Nat :=
  t.foldr (fun i m => max i.2 m) 0

/-- Membership of a byte offset in the region covered by the tree. -/
def covers (t : List (Nat × Nat)) (p : Nat) : Prop :=
  ∃ i ∈ t, i.1 ≤ p ∧ p < i.2

/-- Boolean version of `covers`. -/
def coversB (t : List (Nat × Nat)) (p : Nat) : Bool :=
  t.any (fun i => decide (i.1 ≤ p) && decide (p < i.2))

/-- The `chop_from` of `GhostFile._optimized_add_to_intervaltree`: the left
end of the interval containing `start - 1` if one exists (in Python
`tree[-1]` matches nothing, hence the `start = 0` case), else `start`. -/
def chopFrom (t : List (Nat × Nat)) (s : Nat) : Nat :=
  ((if s = 0 then none else pointQuery t (s - 1)).map (fun i => i.1)).getD s

/-- The `chop_to` of `GhostFile._optimized_add_to_intervaltree`: the right
end of the interval containing `end` if one exists, else `end`. -/
def chopTo (t : List (Nat × Nat)) (e : Nat) : Nat :=
  ((pointQuery t e).map (fun i => i.2)).getD e

/-- `GhostFile._optimized_add_to_intervaltree`: looks up an interval
adjacent on the left (containing `start - 1`) and one containing `end`,
widens the inserted range to absorb them, chops the widened range out of
the tree and re-inserts it as a single interval.  `none` models the
`ValueError` the interval library raises when the re-inserted interval
`[chop_from, chop_to)` is null (possible only for an empty buffer with no
adjacent interval). -/
def optimizedAdd (t : List (Nat × Nat)) (s e : Nat) : Option (List (Nat × Nat)) :=
  if chopFrom t s < chopTo t e then
    some (chop t (chopFrom t s) (chopTo t e) ++ [(chopFrom t s, chopTo t e)])
  else none

/-- The in-memory state of a `GhostFile`: the apparent size and the
rewritten-interval tree (the data path and the held read handle are
represented by passing the physical file contents explicitly). -/
structure GhostState where
  filesize : Nat
  intervals : List (Nat × Nat)
deriving DecidableEq, Repr

/-- `GhostFile.__init__` on a physical file with contents `phys`:
`filesize` is the on-disk size and the tree is seeded with `[0, filesize)`
(empty for an empty file). -/
def ghostInit (phys : List Nat) : GhostState :=
  { filesize := phys.length,
    intervals := if phys.length > 0 then [(0, phys.length)] else [] }

/-- `GhostFile.truncate(length)`: for positive `length`, slices the tree at
`length` and keeps the part below it (each interval starting below `length`
is clipped to `length`, the rest are dropped); for `length = 0` the tree is
cleared.  `filesize` becomes `length`. -/
def ghostTruncate (st : GhostState) (length : Nat) : GhostState :=
  if length > 0 then
    { filesize := length,
      intervals := st.intervals.filterMap
        (fun i => if i.1 < length then some (i.1, min i.2 length) else none) }
  else { filesize := length, intervals := [] }

/-- `GhostFile._is_same_data(buf, offset)`: the bytes the held reader
returns at `offset` (at most `len(buf)` of them) equal `buf`. -/
def sameData (phys buf : List Nat) (offset : Nat) : Prop :=
  buf = (phys.drop offset).take buf.length

instance (phys buf : List Nat) (offset : Nat) : Decidable (sameData phys buf offset) :=
  inferInstanceAs (Decidable (buf = (phys.drop offset).take buf.length))

/-- Byte-level model of `GhostFile._write_tree_to_real_file`: every gap
between recorded intervals (and before the first and after the last, up to
`filesize`) is overwritten with zeros and the file is `ftruncate`d to
`filesize`; bytes inside recorded intervals keep their on-disk value
(positions beyond the old physical end read as zeros). -/
def flushTree (phys : List Nat) (t : List (Nat × Nat)) (filesize : Nat) : List Nat :=
  (List.range filesize).map
    (fun p => if coversB t p && decide (p < phys.length) then phys.getD p 0 else 0)

/-- `os.write` of `buf` at `offset` into a file with contents `base`
(seeking past the end leaves a zero-filled hole). -/
def writeAt (base : List Nat) (offset : Nat) (buf : List Nat) : List Nat :=
  (List.range (max base.length (offset + buf.length))).map
    (fun p => if offset ≤ p ∧ p < offset + buf.length then buf.getD (p - offset) 0
              else base.getD p 0)

/-- `GhostFile.write(buf, offset)` (`ghostfile.py` lines 48–90).  Returns
the new ghost state, the new physical file contents and the returned byte
count; `none` models the `ValueError` of `_optimized_add_to_intervaltree`.
The same-data fast path records the interval and bumps `filesize` without
touching the physical file; the diverging path records the interval,
flushes the tree (filling holes with zeros), physically writes `buf`, and
resets the tree to `[0, new physical size)`. -/
def ghostWrite (st : GhostState) (phys buf : List Nat) (offset : Nat) :
    Option (GhostState × List Nat × Nat) :=
  if offset + buf.length ≤ phys.length ∧ sameData phys buf offset then
    match optimizedAdd st.intervals offset (offset + buf.length) with
    | none => none
    | some t2 =>
      some ({ filesize := max st.filesize (offset + buf.length), intervals := t2 },
        phys, buf.length)
  else
    match optimizedAdd st.intervals offset (offset + buf.length) with
    | none => none
    | some t2 =>
      let fs1 := max st.filesize (offset + buf.length)
      let phys2 := writeAt (flushTree phys t2 fs1) offset buf
      some ({ filesize := phys2.length,
              intervals := if phys2.length > 0 then [(0, phys2.length)] else [] },
        phys2, buf.length)

/-- The assertion closing the same-data fast path of `GhostFile.write`:
`self.__filesize == self.__rewritten_intervals.end()`. -/
def writeFastAssert (st : GhostState) : Prop :=
  st.filesize = treeEnd st.intervals

instance (st : GhostState) : Decidable (writeFastAssert st) :=
  inferInstanceAs (Decidable (st.filesize = treeEnd st.intervals))

/-! ## Theorems -/

/-! ### Path classification (claims C6 and C8) -/

theorem kindCount_eq_one (p : PathInfoT) : kindCount p = 1 := by
  unfold kindCount PathInfoT.isStandardObject PathInfoT.isTag PathInfoT.isEntrypoint
    PathInfoT.isTaggedObject
  cases h1 : p.entrypoint == "" <;> cases h2 : p.tags.length == 0 <;>
    cases h3 : p.file == "" <;> simp [bne, h1, h2, h3, List.count_cons]

/-- Claim C6: for every path accepted by the `PathInfo` constructor (it
accepts every component list), exactly one of the four kind predicates
`is_standard_object`, `is_entrypoint`, `is_tag`, `is_tagged_object` holds
of the resulting classification. -/
theorem pathinfo_exactly_one_kind (cs : List String) :
    kindCount (pathInfoOfComponents cs) = 1 :=
  kindCount_eq_one _

/-- Claim C8: constructing a `PathInfo` from a relative path (components of
`"a/b/c"`) or from the empty path (whose normalized form `"."` has the
single component `"."`) does *not* fail: the constructor runs to completion
and classifies both as standard objects, while the repository's own test
(`test_pathinfo.py`, `test_relative_paths`) expects a `ValueError` for
both. -/
theorem pathinfo_accepts_relative_and_empty :
    pathInfoOfComponents ["a", "b", "c"] = { entrypoint := "", tags := [], file := "" } ∧
    (pathInfoOfComponents ["a", "b", "c"]).isStandardObject = true ∧
    pathInfoOfComponents ["."] = { entrypoint := "", tags := [], file := "" } ∧
    (pathInfoOfComponents ["."]).isStandardObject = true := by
  decide

/-! ### `Graph.has_path` (claim C7) -/

theorem chain'_cons_iff_chain {R : α → α → Prop} (a : α) (l : List α) :
    List.Chain' R (a :: l) ↔ List.Chain R a l := by
  induction l generalizing a with
  | nil => simp [List.chain'_singleton]
  | cons b l ih => rw [List.chain'_cons, List.chain_cons, ih]

theorem hasPathFrom_iff (g : Graph) (l : List String) : ∀ prev : String,
    hasPathFrom g prev l = true ↔
      (∀ x ∈ l, hasNodeB g x = true) ∧
        List.Chain (fun a b => hasArcB g a b = true) prev l := by
  induction l with
  | nil => intro prev; simp [hasPathFrom]
  | cons n rest ih =>
    intro prev
    cases hn : hasNodeB g n <;> cases ha : hasArcB g prev n <;>
      simp [hasPathFrom, hn, ha, List.chain_cons, ih n, and_assoc]

/-- Claim C7: `has_path(seq)` returns true iff every element of the
sequence is a node of the graph and every consecutive pair is an arc; the
empty sequence trivially yields true. -/
theorem graph_hasPath_iff (g : Graph) (seq : List String) :
    hasPath g seq = true ↔
      (∀ x ∈ seq, hasNodeB g x = true) ∧
        List.Chain' (fun a b => hasArcB g a b = true) seq := by
  cases seq with
  | nil => simp [hasPath]
  | cons n rest =>
    rw [chain'_cons_iff_chain]
    cases hn : hasNodeB g n <;>
      simp [hasPath, hn, hasPathFrom_iff g rest n, and_assoc]

/-! ### Code bugs evaluated at their failing inputs (claims C2, C3, C4) -/

/-- Claim C2 (code bug): `rmdir` of the chain-length-1 tag `_t1` on a
semantic folder whose file `x` is tagged `{_t1}` removes the graph node,
but does *not* discard `_t1` from `x`'s tagset: the call
`tagged_files(path.tags[-1])` passes the tag as a string, which is
iterated character by character (`["_", "t", "1"]`), so no file's tagset
is a superset and the discard loop runs over the empty list.  Afterwards
`x` is still tagged `_t1` (witnessed by `tagged_files(["_t1"]) = ["x"]`),
though the file entry itself remains, as the claim says. -/
theorem rmdirTag_keeps_tag_in_tagsets :
    rmdirTagRoot (Graph.mk [("_t1", [])] [("_t1", [])]) [("x", ["_t1"])] "_t1" =
      some (Graph.mk [] [], [("x", ["_t1"])]) ∧
    stringAsTags "_t1" = ["_", "t", "1"] ∧
    taggedFiles [("x", ["_t1"])] (stringAsTags "_t1") = [] ∧
    taggedFiles [("x", ["_t1"])] ["_t1"] = ["x"] := by
  decide

/-- Claim C3 (code bug): renaming node `a` to `c` in a graph with nodes
`{a, b}` and *no* arcs runs `nodes.discard(old); nodes.add(new)` on every
adjacency set, so `c` is recorded in the out-adjacency set of `b` (a
spurious arc `b → c` between nodes that had no arc involving `a`), while
`b` is not recorded in the in-adjacency set of `c` — the very equality the
assert of `has_arc` checks. -/
theorem renameNode_creates_spurious_arcs :
    renameNode (Graph.mk [("a", []), ("b", [])] [("a", []), ("b", [])]) "a" "c" =
      some (Graph.mk [("b", ["c"]), ("c", ["c"])] [("b", ["c"]), ("c", ["c"])]) ∧
    hasArcB (Graph.mk [("a", []), ("b", [])] [("a", []), ("b", [])]) "b" "a" = false ∧
    hasArcB (Graph.mk [("b", ["c"]), ("c", ["c"])] [("b", ["c"]), ("c", ["c"])]) "b" "c" = true ∧
    hasArcInB (Graph.mk [("b", ["c"]), ("c", ["c"])] [("b", ["c"]), ("c", ["c"])]) "b" "c" = false := by
  decide

/-- Claim C4 (code bug): `rename_tag('_t1', '_t2')` on a map where `x` has
no tags and `y` is tagged `{_t1}` runs the unconditional
`filetags.discard(old); filetags.add(new)` on every tagset, so `x` — for
which `_t1` was absent and whose tagset the claim says stays unchanged —
gains the tag `_t2`. -/
theorem renameTag_not_noop_when_absent :
    renameTag [("x", []), ("y", ["_t1"])] "_t1" "_t2" =
      [("x", ["_t2"]), ("y", ["_t2"])] ∧
    dictGet (renameTag [("x", []), ("y", ["_t1"])] "_t1" "_t2") "x" = some ["_t2"] := by
  decide

/-! ### Dictionary and set lemmas -/

theorem dictMem_iff {α} (d : List (String × α)) (k : String) :
    dictMem d k = true ↔ ∃ p ∈ d, p.1 = k := by
  simp [dictMem, List.any_eq_true]

theorem dictMem_eq_isSome {α} (d : List (String × α)) (k : String) :
    dictMem d k = (dictGet d k).isSome := by
  rw [dictMem, dictGet]
  cases h : d.find? (fun p => p.1 == k) with
  | none =>
    show d.any (fun p => p.1 == k) = false
    rw [List.any_eq_false]
    intro p hp
    exact List.find?_eq_none.mp h p hp
  | some p =>
    show d.any (fun p => p.1 == k) = true
    rw [List.any_eq_true]
    exact ⟨p, List.mem_of_find?_eq_some h, by simpa using List.find?_some h⟩

theorem dictGet_mem {α} {d : List (String × α)} {k : String} {v : α}
    (h : dictGet d k = some v) : (k, v) ∈ d := by
  rw [dictGet] at h
  cases hf : d.find? (fun p => p.1 == k) with
  | none => rw [hf] at h; simp at h
  | some p =>
    rw [hf, Option.map_some'] at h
    have hk : p.1 = k := by simpa using List.find?_some hf
    have hm := List.mem_of_find?_eq_some hf
    have hkv : (k, v) = p := by
      cases p; simp_all
    rw [hkv]; exact hm

theorem find?_map_keyinv {α} (d : List (String × α)) (f : String × α → String × α)
    (hf : ∀ p, (f p).1 = p.1) (k : String) :
    (d.map f).find? (fun p => p.1 == k) = (d.find? (fun p => p.1 == k)).map f := by
  rw [List.find?_map]
  have heq : ((fun p : String × α => p.1 == k) ∘ f) = fun p => p.1 == k := by
    funext p
    simp [Function.comp, hf p]
  rw [heq]

theorem dictSet_key_eq {α} (_d : List (String × α)) (k : String) (v : α) (p : String × α) :
    ((fun q => if q.1 == k then (q.1, v) else q) p).1 = p.1 := by
  by_cases h : p.1 == k <;> simp [h]

theorem find?_of_not_dictMem {α} {d : List (String × α)} {k : String}
    (hm : ¬dictMem d k = true) : d.find? (fun p => p.1 == k) = none := by
  rw [dictMem_eq_isSome, dictGet] at hm
  cases hf : d.find? (fun p => p.1 == k) with
  | none => rfl
  | some p => rw [hf] at hm; simp at hm

theorem dictGet_dictSet_self {α} (d : List (String × α)) (k : String) (v : α) :
    dictGet (dictSet d k v) k = some v := by
  unfold dictSet
  by_cases hm : dictMem d k = true
  · rw [if_pos hm]
    rw [dictGet, find?_map_keyinv d _ (dictSet_key_eq d k v) k]
    rw [dictMem_eq_isSome, dictGet] at hm
    cases hf : d.find? (fun p => p.1 == k) with
    | none => rw [hf] at hm; simp at hm
    | some p =>
      have hk : (p.1 == k) = true := by simpa using List.find?_some hf
      rw [Option.map_some', Option.map_some']
      simp [hk]
  · rw [if_neg hm]
    rw [dictGet, List.find?_append, find?_of_not_dictMem hm]
    have hsing : ((k, v) :: ([] : List (String × α))).find? (fun p => p.1 == k) = some (k, v) :=
      List.find?_cons_of_pos _ (by simp)
    rw [hsing]
    rfl

theorem dictGet_dictSet_ne {α} (d : List (String × α)) (k : String) (v : α)
    {q : String} (h : q ≠ k) : dictGet (dictSet d k v) q = dictGet d q := by
  unfold dictSet
  by_cases hm : dictMem d k = true
  · rw [if_pos hm]
    rw [dictGet, find?_map_keyinv d _ (dictSet_key_eq d k v) q, dictGet]
    cases hf : d.find? (fun p => p.1 == q) with
    | none => rfl
    | some p =>
      have hk : p.1 = q := by simpa using List.find?_some hf
      have hpk : (p.1 == k) = false := by simp [hk, h]
      rw [Option.map_some', Option.map_some', Option.map_some']
      simp [hpk]
  · rw [if_neg hm]
    rw [dictGet, List.find?_append, dictGet]
    have hsing : ((k, v) :: ([] : List (String × α))).find? (fun p => p.1 == q) = none :=
      List.find?_cons_of_neg _ (by simp [Ne.symm h])
    rw [hsing]
    cases hf : d.find? (fun p => p.1 == q) <;> rfl

theorem dictMem_dictSet {α} (d : List (String × α)) (k : String) (v : α) (q : String) :
    dictMem (dictSet d k v) q = true ↔ q = k ∨ dictMem d q = true := by
  by_cases h : q = k
  · subst h
    simp [dictMem_eq_isSome, dictGet_dictSet_self]
  · rw [dictMem_eq_isSome, dictGet_dictSet_ne d k v h, ← dictMem_eq_isSome]
    simp [h]

theorem dictGet_dictDel_self {α} (d : List (String × α)) (k : String) :
    dictGet (dictDel d k) k = none := by
  rw [dictGet]
  have hnone : (dictDel d k).find? (fun p => p.1 == k) = none := by
    rw [List.find?_eq_none]
    intro p hp
    rw [dictDel, List.mem_filter] at hp
    simpa using hp.2
  rw [hnone]
  rfl

theorem find?_dictDel_ne {α} (d : List (String × α)) (k : String)
    {q : String} (h : q ≠ k) :
    (dictDel d k).find? (fun p => p.1 == q) = d.find? (fun p => p.1 == q) := by
  rw [dictDel]
  induction d with
  | nil => rfl
  | cons p t ih =>
    rw [List.filter_cons]
    by_cases hk : p.1 = k
    · have h1 : ¬((p.1 != k) = true) := by simp [hk]
      have h2 : ¬((fun r : String × α => r.1 == q) p = true) := by simp [hk, Ne.symm h]
      rw [if_neg h1, @List.find?_cons_of_neg (String × α) (fun r => r.1 == q) p t h2]
      exact ih
    · have h1 : (p.1 != k) = true := by simp [hk]
      rw [if_pos h1]
      by_cases hq : (fun r : String × α => r.1 == q) p = true
      · rw [@List.find?_cons_of_pos (String × α) (fun r => r.1 == q) p
            (t.filter (fun r => r.1 != k)) hq,
          @List.find?_cons_of_pos (String × α) (fun r => r.1 == q) p t hq]
      · rw [@List.find?_cons_of_neg (String × α) (fun r => r.1 == q) p
            (t.filter (fun r => r.1 != k)) hq,
          @List.find?_cons_of_neg (String × α) (fun r => r.1 == q) p t hq]
        exact ih

theorem dictGet_dictDel_ne {α} (d : List (String × α)) (k : String)
    {q : String} (h : q ≠ k) : dictGet (dictDel d k) q = dictGet d q := by
  rw [dictGet, dictGet, find?_dictDel_ne d k h]

theorem dictMem_dictDel {α} (d : List (String × α)) (k q : String) :
    dictMem (dictDel d k) q = true ↔ q ≠ k ∧ dictMem d q = true := by
  by_cases h : q = k
  · subst h
    simp [dictMem_eq_isSome, dictGet_dictDel_self]
  · rw [dictMem_eq_isSome, dictGet_dictDel_ne d k h, ← dictMem_eq_isSome]
    simp [h]

theorem dictModify_key_eq {α} (k : String) (f : α → α) (p : String × α) :
    ((fun q => if q.1 == k then (q.1, f q.2) else q) p).1 = p.1 := by
  by_cases h : p.1 == k <;> simp [h]

theorem dictGet_dictModify_self {α} (d : List (String × α)) (k : String) (f : α → α) :
    dictGet (dictModify d k f) k = (dictGet d k).map f := by
  rw [dictModify, dictGet, find?_map_keyinv d _ (dictModify_key_eq k f) k, dictGet]
  cases hf : d.find? (fun p => p.1 == k) with
  | none => rfl
  | some p =>
    have hk : p.1 = k := by simpa using List.find?_some hf
    simp [hk]

theorem dictGet_dictModify_ne {α} (d : List (String × α)) (k : String) (f : α → α)
    {q : String} (h : q ≠ k) : dictGet (dictModify d k f) q = dictGet d q := by
  rw [dictModify, dictGet, find?_map_keyinv d _ (dictModify_key_eq k f) q, dictGet]
  cases hf : d.find? (fun p => p.1 == q) with
  | none => rfl
  | some p =>
    have hk : p.1 = q := by simpa using List.find?_some hf
    simp [hk, h]

theorem dictMem_dictModify {α} (d : List (String × α)) (k : String) (f : α → α)
    (q : String) : dictMem (dictModify d k f) q = dictMem d q := by
  by_cases h : q = k
  · subst h
    rw [dictMem_eq_isSome, dictMem_eq_isSome, dictGet_dictModify_self]
    cases dictGet d q <;> rfl
  · rw [dictMem_eq_isSome, dictMem_eq_isSome, dictGet_dictModify_ne d k f h]

theorem mem_setAdd (s : List String) (x y : String) :
    y ∈ setAdd s x ↔ y ∈ s ∨ y = x := by
  unfold setAdd
  by_cases h : s.contains x = true
  · have hx : x ∈ s := by simpa using h
    rw [if_pos h]
    constructor
    · exact Or.inl
    · rintro (hy | rfl)
      · exact hy
      · exact hx
  · rw [if_neg h]
    simp [List.mem_append]

theorem mem_setDiscard (s : List String) (x y : String) :
    y ∈ setDiscard s x ↔ y ∈ s ∧ y ≠ x := by
  unfold setDiscard
  simp [List.mem_filter]

/-! ### Graph invariant characterizations (claim C9) -/

theorem dictMem_map_keyinv {α} (d : List (String × α)) (f : String × α → String × α)
    (hf : ∀ p, (f p).1 = p.1) (k : String) :
    dictMem (d.map f) k = dictMem d k := by
  unfold dictMem
  rw [List.any_map]
  congr 1
  funext p
  simp [Function.comp, hf p]

theorem hasArcB_iff (g : Graph) (a b : String) :
    hasArcB g a b = true ↔ ∃ s, dictGet g.adjOut a = some s ∧ b ∈ s := by
  unfold hasArcB
  cases h : dictGet g.adjOut a with
  | none => simp
  | some s => simp [h]

theorem hasArcInB_iff (g : Graph) (a b : String) :
    hasArcInB g a b = true ↔ ∃ s, dictGet g.adjIn b = some s ∧ a ∈ s := by
  unfold hasArcInB
  cases h : dictGet g.adjIn b with
  | none => simp
  | some s => simp [h]

theorem keySyncB_iff (g : Graph) : keySyncB g = true ↔ keySyncP g := by
  unfold keySyncB keySyncP
  rw [Bool.and_eq_true, List.all_eq_true, List.all_eq_true]
  constructor
  · rintro ⟨h1, h2⟩ k
    constructor
    · intro ho
      obtain ⟨p, hp, hpk⟩ := (dictMem_iff _ _).mp ho
      rw [← hpk]
      simpa using h1 p hp
    · intro hi
      obtain ⟨p, hp, hpk⟩ := (dictMem_iff _ _).mp hi
      rw [← hpk]
      simpa using h2 p hp
  · intro h
    constructor
    · intro p hp
      have ho : dictMem g.adjOut p.1 = true := (dictMem_iff _ _).mpr ⟨p, hp, rfl⟩
      simpa using (h p.1).mp ho
    · intro p hp
      have hi : dictMem g.adjIn p.1 = true := (dictMem_iff _ _).mpr ⟨p, hp, rfl⟩
      simpa using (h p.1).mpr hi

theorem closureB_iff (g : Graph) : closureB g = true ↔ closureP g := by
  unfold closureB closureP
  rw [Bool.and_eq_true, List.all_eq_true, List.all_eq_true]
  constructor
  · rintro ⟨h1, h2⟩
    exact ⟨fun p hp x hx => by simpa using (List.all_eq_true.mp (by simpa using h1 p hp)) x hx,
           fun p hp x hx => by simpa using (List.all_eq_true.mp (by simpa using h2 p hp)) x hx⟩
  · rintro ⟨h1, h2⟩
    exact ⟨fun p hp => by rw [List.all_eq_true]; intro x hx; exact h1 p hp x hx,
           fun p hp => by rw [List.all_eq_true]; intro x hx; exact h2 p hp x hx⟩

theorem pairSyncB_iff (g : Graph) : pairSyncB g = true ↔ pairSyncP g := by
  unfold pairSyncB pairSyncP
  rw [Bool.and_eq_true, List.all_eq_true, List.all_eq_true]
  constructor
  · rintro ⟨h1, h2⟩ a b
    constructor
    · intro ho
      obtain ⟨s, hs, hbs⟩ := (hasArcB_iff g a b).mp ho
      have hmem : (a, s) ∈ g.adjOut := dictGet_mem hs
      have := List.all_eq_true.mp (by simpa using h1 (a, s) hmem)
      have hb := this b (by simpa [hs] using hbs)
      simpa using hb
    · intro hi
      obtain ⟨s, hs, has⟩ := (hasArcInB_iff g a b).mp hi
      have hmem : (b, s) ∈ g.adjIn := dictGet_mem hs
      have := List.all_eq_true.mp (by simpa using h2 (b, s) hmem)
      have ha := this a (by simpa [hs] using has)
      simpa using ha
  · intro h
    constructor
    · intro p hp
      rw [List.all_eq_true]
      intro b hb
      have ho : hasArcB g p.1 b = true := by
        rcases hg : dictGet g.adjOut p.1 with _ | s
        · rw [hg] at hb; simp at hb
        · rw [hg] at hb
          exact (hasArcB_iff g p.1 b).mpr ⟨s, hg, by simpa using hb⟩
      simpa using (h p.1 b).mp ho
    · intro p hp
      rw [List.all_eq_true]
      intro a ha
      have hi : hasArcInB g a p.1 = true := by
        rcases hg : dictGet g.adjIn p.1 with _ | s
        · rw [hg] at ha; simp at ha
        · rw [hg] at ha
          exact (hasArcInB_iff g a p.1).mpr ⟨s, hg, by simpa using ha⟩
      simpa using (h a p.1).mpr hi

theorem graphInv_iff (g : Graph) :
    graphInv g = true ↔ keySyncP g ∧ closureP g ∧ pairSyncP g := by
  unfold graphInv
  rw [Bool.and_eq_true, Bool.and_eq_true, keySyncB_iff, closureB_iff, pairSyncB_iff]
  tauto

theorem hasArcB_node_right {g : Graph} {a b : String} (hcl : closureP g)
    (h : hasArcB g a b = true) : hasNodeB g b = true := by
  obtain ⟨s, hs, hbs⟩ := (hasArcB_iff g a b).mp h
  exact hcl.1 (a, s) (dictGet_mem hs) b hbs

theorem hasArcInB_node_left {g : Graph} {a b : String} (hcl : closureP g)
    (h : hasArcInB g a b = true) : hasNodeB g a = true := by
  obtain ⟨s, hs, has⟩ := (hasArcInB_iff g a b).mp h
  exact hcl.2 (b, s) (dictGet_mem hs) a has

theorem addNode_some_inv {g : Graph} {n : String} {g' : Graph}
    (h : addNode g n = some g') :
    dictMem g.adjOut n = false ∧
      g' = { adjOut := dictSet g.adjOut n [], adjIn := dictSet g.adjIn n [] } := by
  unfold addNode at h
  by_cases hm : dictMem g.adjOut n = true
  · rw [if_pos hm] at h; cases h
  · rw [if_neg hm] at h
    exact ⟨by simpa using hm, (Option.some.inj h).symm⟩

theorem addNode_preserves {g : Graph} {n : String} {g' : Graph}
    (h : addNode g n = some g') (hks : keySyncP g) (hcl : closureP g)
    (hps : pairSyncP g) : keySyncP g' ∧ closureP g' ∧ pairSyncP g' := by
  obtain ⟨hmem, hg'⟩ := addNode_some_inv h
  have ho : g'.adjOut = dictSet g.adjOut n [] := by rw [hg']
  have hi : g'.adjIn = dictSet g.adjIn n [] := by rw [hg']
  have hmem' : ¬dictMem g.adjOut n = true := by simp [hmem]
  have hmemIn : ¬dictMem g.adjIn n = true := fun hq => hmem' ((hks n).mpr hq)
  have hnode : ∀ x, hasNodeB g' x = true ↔ x = n ∨ hasNodeB g x = true := by
    intro x
    unfold hasNodeB
    rw [ho]
    exact dictMem_dictSet g.adjOut n [] x
  have harcOut : ∀ a b, hasArcB g' a b = true ↔ a ≠ n ∧ hasArcB g a b = true := by
    intro a b
    unfold hasArcB
    rw [ho]
    by_cases ha : a = n
    · subst ha
      rw [dictGet_dictSet_self]
      simp
    · rw [dictGet_dictSet_ne g.adjOut n [] ha]
      simp [ha]
  have harcIn : ∀ a b, hasArcInB g' a b = true ↔ b ≠ n ∧ hasArcInB g a b = true := by
    intro a b
    unfold hasArcInB
    rw [hi]
    by_cases hb : b = n
    · subst hb
      rw [dictGet_dictSet_self]
      simp
    · rw [dictGet_dictSet_ne g.adjIn n [] hb]
      simp [hb]
  refine ⟨?_, ?_, ?_⟩
  · intro k
    unfold keySyncP at hks
    rw [ho, hi, dictMem_dictSet, dictMem_dictSet]
    exact or_congr Iff.rfl (hks k)
  · have houteq : g'.adjOut = g.adjOut ++ [(n, [])] := by
      rw [ho]; unfold dictSet; rw [if_neg hmem']
    have hineq : g'.adjIn = g.adjIn ++ [(n, [])] := by
      rw [hi]; unfold dictSet; rw [if_neg hmemIn]
    constructor
    · intro p hp x hx
      rw [hnode x]
      rw [houteq] at hp
      rcases List.mem_append.mp hp with hpo | hpn
      · exact Or.inr (hcl.1 p hpo x hx)
      · have hpe : p = (n, ([] : List String)) := by simpa using hpn
        rw [hpe] at hx
        simp at hx
    · intro p hp x hx
      rw [hnode x]
      rw [hineq] at hp
      rcases List.mem_append.mp hp with hpo | hpn
      · exact Or.inr (hcl.2 p hpo x hx)
      · have hpe : p = (n, ([] : List String)) := by simpa using hpn
        rw [hpe] at hx
        simp at hx
  · intro a b
    rw [harcOut a b, harcIn a b]
    constructor
    · rintro ⟨ha, harc⟩
      refine ⟨?_, (hps a b).mp harc⟩
      intro hb
      subst hb
      exact hmem' (hasArcB_node_right hcl harc)
    · rintro ⟨hb, harc⟩
      refine ⟨?_, (hps a b).mpr harc⟩
      intro ha
      subst ha
      exact hmem' (hasArcInB_node_left hcl harc)

theorem addArc_some_inv {g : Graph} {f t : String} {g' : Graph}
    (h : addArc g f t = some g') :
    hasNodeB g f = true ∧ hasNodeB g t = true ∧
      g'.adjOut = dictModify g.adjOut f (fun s => setAdd s t) ∧
      g'.adjIn = dictModify g.adjIn t (fun s => setAdd s f) := by
  unfold addArc at h
  cases hn : (hasNodeB g f && hasNodeB g t) with
  | true =>
    rw [if_neg (by simp [hn])] at h
    rw [Bool.and_eq_true] at hn
    have hg' := (Option.some.inj h).symm
    exact ⟨hn.1, hn.2, by rw [hg'], by rw [hg']⟩
  | false =>
    rw [if_pos (by simp [hn])] at h
    cases h

theorem contains_getD_some {s : List String} {o : Option (List String)} {b : String}
    (h : o = some s) : ((o.getD []).contains b) = s.contains b := by
  rw [h]; rfl

theorem hasArcB_addArc {g : Graph} {f t : String} {g' : Graph}
    (hf : hasNodeB g f = true)
    (ho : g'.adjOut = dictModify g.adjOut f (fun s => setAdd s t)) :
    ∀ a b, hasArcB g' a b = true ↔ hasArcB g a b = true ∨ (a = f ∧ b = t) := by
  intro a b
  unfold hasArcB
  rw [ho]
  by_cases ha : a = f
  · subst ha
    rw [dictGet_dictModify_self]
    unfold hasNodeB at hf
    rw [dictMem_eq_isSome] at hf
    obtain ⟨s, hs⟩ := Option.isSome_iff_exists.mp hf
    rw [hs]
    show ((setAdd s t).contains b) = true ↔ (s.contains b) = true ∨ (a = a ∧ b = t)
    simp [mem_setAdd]
  · rw [dictGet_dictModify_ne g.adjOut f _ ha]
    simp [ha]

theorem hasArcInB_addArc {g : Graph} {f t : String} {g' : Graph}
    (ht : hasNodeB g t = true) (hks : keySyncP g)
    (hi : g'.adjIn = dictModify g.adjIn t (fun s => setAdd s f)) :
    ∀ a b, hasArcInB g' a b = true ↔ hasArcInB g a b = true ∨ (a = f ∧ b = t) := by
  intro a b
  unfold hasArcInB
  rw [hi]
  by_cases hb : b = t
  · subst hb
    rw [dictGet_dictModify_self]
    have htIn : dictMem g.adjIn b = true := (hks b).mp ht
    rw [dictMem_eq_isSome] at htIn
    obtain ⟨s, hs⟩ := Option.isSome_iff_exists.mp htIn
    rw [hs]
    show ((setAdd s f).contains a) = true ↔ (s.contains a) = true ∨ (a = f ∧ b = b)
    simp [mem_setAdd]
  · rw [dictGet_dictModify_ne g.adjIn t _ hb]
    simp [hb]

theorem addArc_preserves {g : Graph} {f t : String} {g' : Graph}
    (h : addArc g f t = some g') (hks : keySyncP g) (hcl : closureP g)
    (hps : pairSyncP g) : keySyncP g' ∧ closureP g' ∧ pairSyncP g' := by
  obtain ⟨hf, ht, ho, hi⟩ := addArc_some_inv h
  have hnode : ∀ x, hasNodeB g' x = hasNodeB g x := by
    intro x
    unfold hasNodeB
    rw [ho, dictMem_dictModify]
  refine ⟨?_, ?_, ?_⟩
  · intro k
    rw [show g'.adjOut = _ from ho, show g'.adjIn = _ from hi,
      dictMem_dictModify, dictMem_dictModify]
    exact hks k
  · constructor
    · intro p hp x hx
      rw [ho] at hp
      rw [hnode x]
      obtain ⟨q, hq, hpq⟩ := List.mem_map.mp hp
      rw [← hpq] at hx
      by_cases hqf : (q.1 == f) = true
      · rw [if_pos hqf] at hx
        rcases (mem_setAdd q.2 t x).mp (by simpa using hx) with hxs | hxt
        · exact hcl.1 q hq x hxs
        · rw [hxt]; exact ht
      · rw [if_neg hqf] at hx
        exact hcl.1 q hq x hx
    · intro p hp x hx
      rw [hi] at hp
      rw [hnode x]
      obtain ⟨q, hq, hpq⟩ := List.mem_map.mp hp
      rw [← hpq] at hx
      by_cases hqt : (q.1 == t) = true
      · rw [if_pos hqt] at hx
        rcases (mem_setAdd q.2 f x).mp (by simpa using hx) with hxs | hxf
        · exact hcl.2 q hq x hxs
        · rw [hxf]; exact hf
      · rw [if_neg hqt] at hx
        exact hcl.2 q hq x hx
  · intro a b
    rw [hasArcB_addArc hf ho a b, hasArcInB_addArc ht hks hi a b]
    exact or_congr (hps a b) Iff.rfl

theorem removeArc_some_inv {g : Graph} {f t : String} {g' : Graph}
    (h : removeArc g f t = some g') :
    hasNodeB g f = true ∧ hasNodeB g t = true ∧ hasArcB g f t = true ∧
      g'.adjOut = dictModify g.adjOut f (fun s => s.filter (fun y => y != t)) ∧
      g'.adjIn = dictModify g.adjIn t (fun s => s.filter (fun y => y != f)) := by
  unfold removeArc at h
  cases hn : (hasNodeB g f && hasNodeB g t) with
  | false =>
    rw [if_pos (by simp [hn])] at h
    cases h
  | true =>
    rw [if_neg (by simp [hn])] at h
    rw [Bool.and_eq_true] at hn
    cases harc : hasArcB g f t with
    | false =>
      rw [if_pos (by simp [harc])] at h
      cases h
    | true =>
      rw [if_neg (by simp [harc])] at h
      cases harcIn : hasArcInB g f t with
      | false =>
        rw [if_pos (by simp [harcIn])] at h
        cases h
      | true =>
        rw [if_neg (by simp [harcIn])] at h
        have hg' := (Option.some.inj h).symm
        exact ⟨hn.1, hn.2, rfl, by rw [hg'], by rw [hg']⟩

theorem hasArcB_removeArc {g : Graph} {f t : String} {g' : Graph}
    (ho : g'.adjOut = dictModify g.adjOut f (fun s => s.filter (fun y => y != t))) :
    ∀ a b, hasArcB g' a b = true ↔ hasArcB g a b = true ∧ ¬(a = f ∧ b = t) := by
  intro a b
  unfold hasArcB
  rw [ho]
  by_cases ha : a = f
  · subst ha
    rw [dictGet_dictModify_self]
    cases hs : dictGet g.adjOut a with
    | none => simp
    | some s =>
      rw [Option.map_some']
      show ((s.filter (fun y => y != t)).contains b) = true ↔ _
      simp [List.mem_filter]
  · rw [dictGet_dictModify_ne g.adjOut f _ ha]
    simp [ha]

theorem hasArcInB_removeArc {g : Graph} {f t : String} {g' : Graph}
    (hi : g'.adjIn = dictModify g.adjIn t (fun s => s.filter (fun y => y != f))) :
    ∀ a b, hasArcInB g' a b = true ↔ hasArcInB g a b = true ∧ ¬(a = f ∧ b = t) := by
  intro a b
  unfold hasArcInB
  rw [hi]
  by_cases hb : b = t
  · subst hb
    rw [dictGet_dictModify_self]
    cases hs : dictGet g.adjIn b with
    | none => simp
    | some s =>
      rw [Option.map_some']
      show ((s.filter (fun y => y != f)).contains a) = true ↔ _
      simp [List.mem_filter]
  · rw [dictGet_dictModify_ne g.adjIn t _ hb]
    simp [hb]

theorem removeArc_preserves {g : Graph} {f t : String} {g' : Graph}
    (h : removeArc g f t = some g') (hks : keySyncP g) (hcl : closureP g)
    (hps : pairSyncP g) : keySyncP g' ∧ closureP g' ∧ pairSyncP g' := by
  obtain ⟨hf, ht, harc, ho, hi⟩ := removeArc_some_inv h
  have hnode : ∀ x, hasNodeB g' x = hasNodeB g x := by
    intro x
    unfold hasNodeB
    rw [ho, dictMem_dictModify]
  refine ⟨?_, ?_, ?_⟩
  · intro k
    rw [show g'.adjOut = _ from ho, show g'.adjIn = _ from hi,
      dictMem_dictModify, dictMem_dictModify]
    exact hks k
  · constructor
    · intro p hp x hx
      rw [ho] at hp
      rw [hnode x]
      obtain ⟨q, hq, hpq⟩ := List.mem_map.mp hp
      rw [← hpq] at hx
      by_cases hqf : (q.1 == f) = true
      · rw [if_pos hqf] at hx
        exact hcl.1 q hq x (List.mem_filter.mp hx).1
      · rw [if_neg hqf] at hx
        exact hcl.1 q hq x hx
    · intro p hp x hx
      rw [hi] at hp
      rw [hnode x]
      obtain ⟨q, hq, hpq⟩ := List.mem_map.mp hp
      rw [← hpq] at hx
      by_cases hqt : (q.1 == t) = true
      · rw [if_pos hqt] at hx
        exact hcl.2 q hq x (List.mem_filter.mp hx).1
      · rw [if_neg hqt] at hx
        exact hcl.2 q hq x hx
  · intro a b
    rw [hasArcB_removeArc ho a b, hasArcInB_removeArc hi a b]
    exact and_congr (hps a b) Iff.rfl

theorem removeNode_some_inv {g : Graph} {n : String} {g' : Graph}
    (h : removeNode g n = some g') :
    hasNodeB g n = true ∧ g'.adjOut = dictDel g.adjOut n ∧ g'.adjIn = dictDel g.adjIn n := by
  unfold removeNode at h
  cases hn : hasNodeB g n with
  | false =>
    rw [if_pos (by simp [hn])] at h
    cases h
  | true =>
    rw [if_neg (by simp [hn])] at h
    have hg' := (Option.some.inj h).symm
    exact ⟨rfl, by rw [hg'], by rw [hg']⟩

theorem removeNode_preserves_keySync {g : Graph} {n : String} {g' : Graph}
    (h : removeNode g n = some g') (hks : keySyncP g) : keySyncP g' := by
  obtain ⟨hn, ho, hi⟩ := removeNode_some_inv h
  intro k
  rw [show g'.adjOut = _ from ho, show g'.adjIn = _ from hi]
  rw [dictMem_dictDel, dictMem_dictDel]
  exact and_congr Iff.rfl (hks k)

theorem renameNode_some_inv {g : Graph} {o n : String} {g' : Graph}
    (h : renameNode g o n = some g') :
    hasNodeB g o = true ∧ hasNodeB g n = false ∧
      g'.adjOut = (dictSet (dictDel g.adjOut o) n ((dictGet g.adjOut o).getD [])).map
        (fun p => (p.1, setAdd (setDiscard p.2 o) n)) ∧
      g'.adjIn = (dictSet (dictDel g.adjIn o) n ((dictGet g.adjIn o).getD [])).map
        (fun p => (p.1, setAdd (setDiscard p.2 o) n)) := by
  unfold renameNode at h
  cases ho : hasNodeB g o with
  | false =>
    rw [if_pos (by simp [ho])] at h
    cases h
  | true =>
    rw [if_neg (by simp [ho])] at h
    cases hn : hasNodeB g n with
    | true =>
      rw [if_pos (by simp [hn])] at h
      cases h
    | false =>
      rw [if_neg (by simp [hn])] at h
      have hg' := (Option.some.inj h).symm
      exact ⟨rfl, rfl, by rw [hg'], by rw [hg']⟩

theorem renameNode_preserves_keySync {g : Graph} {o n : String} {g' : Graph}
    (h : renameNode g o n = some g') (hks : keySyncP g) : keySyncP g' := by
  obtain ⟨ho, hn, hout, hin⟩ := renameNode_some_inv h
  intro k
  rw [show g'.adjOut = _ from hout, show g'.adjIn = _ from hin]
  rw [dictMem_map_keyinv _ (fun p => (p.1, setAdd (setDiscard p.2 o) n)) (fun p => rfl) k,
    dictMem_map_keyinv _ (fun p => (p.1, setAdd (setDiscard p.2 o) n)) (fun p => rfl) k]
  rw [dictMem_dictSet, dictMem_dictSet, dictMem_dictDel, dictMem_dictDel]
  exact or_congr Iff.rfl (and_congr Iff.rfl (hks k))

theorem addNode_preserves_keySync {g : Graph} {n : String} {g' : Graph}
    (h : addNode g n = some g') (hks : keySyncP g) : keySyncP g' := by
  obtain ⟨hmem, hg'⟩ := addNode_some_inv h
  have ho : g'.adjOut = dictSet g.adjOut n [] := by rw [hg']
  have hi : g'.adjIn = dictSet g.adjIn n [] := by rw [hg']
  intro k
  rw [show g'.adjOut = _ from ho, show g'.adjIn = _ from hi]
  rw [dictMem_dictSet, dictMem_dictSet]
  exact or_congr Iff.rfl (hks k)

theorem addArc_preserves_keySync {g : Graph} {f t : String} {g' : Graph}
    (h : addArc g f t = some g') (hks : keySyncP g) : keySyncP g' := by
  obtain ⟨hf, ht, ho, hi⟩ := addArc_some_inv h
  intro k
  rw [show g'.adjOut = _ from ho, show g'.adjIn = _ from hi]
  rw [dictMem_dictModify, dictMem_dictModify]
  exact hks k

theorem removeArc_preserves_keySync {g : Graph} {f t : String} {g' : Graph}
    (h : removeArc g f t = some g') (hks : keySyncP g) : keySyncP g' := by
  obtain ⟨hf, ht, harc, ho, hi⟩ := removeArc_some_inv h
  intro k
  rw [show g'.adjOut = _ from ho, show g'.adjIn = _ from hi]
  rw [dictMem_dictModify, dictMem_dictModify]
  exact hks k

/-! ### The claim theorems for C9 -/

/-- Claim C9, counterexample: the state with nodes `{a, b}` and arc `a → b`
is reachable (built by `add_node`, `add_node`, `add_arc` from the empty
graph) and satisfies the representation invariant, but `remove_node b`
leaves `b` dangling inside `a`'s out-adjacency set, violating the
invariant — so not every `Graph` operation preserves it. -/
theorem graph_removeNode_breaks_invariant :
    ((addNode emptyGraph "a").bind (fun g => addNode g "b")).bind
        (fun g => addArc g "a" "b") =
      some (Graph.mk [("a", ["b"]), ("b", [])] [("a", []), ("b", ["a"])]) ∧
    graphInv (Graph.mk [("a", ["b"]), ("b", [])] [("a", []), ("b", ["a"])]) = true ∧
    removeNode (Graph.mk [("a", ["b"]), ("b", [])] [("a", []), ("b", ["a"])]) "b" =
      some (Graph.mk [("a", ["b"])] [("a", [])]) ∧
    graphInv (Graph.mk [("a", ["b"])] [("a", [])]) = false ∧
    hasArcB (Graph.mk [("a", ["b"])] [("a", [])]) "a" "b" = true ∧
    hasNodeB (Graph.mk [("a", ["b"])] [("a", [])]) "b" = false := by
  decide

/-- Claim C9, amended: `add_node`, `add_arc` and `remove_arc` preserve the
full representation invariant (key sync, closure of adjacency members
under node existence, and out/in arc consistency).  The empty graph
satisfies key sync and *all five* operations preserve the key-sync
component assuming only key sync of the pre-state, so by induction every
state reachable by these operations satisfies key sync and the assert in
`has_node` cannot fail on reachable states.  But `remove_node` may leave
adjacency members that are no longer nodes and `rename_node` may break
the arc consistency checked by the assert of `has_arc`. -/
theorem graph_ops_invariant_amended :
    keySyncB emptyGraph = true ∧
    (∀ g n g', addNode g n = some g' → graphInv g = true → graphInv g' = true) ∧
    (∀ g a b g', addArc g a b = some g' → graphInv g = true → graphInv g' = true) ∧
    (∀ g a b g', removeArc g a b = some g' → graphInv g = true → graphInv g' = true) ∧
    (∀ g n g', addNode g n = some g' → keySyncB g = true → keySyncB g' = true) ∧
    (∀ g a b g', addArc g a b = some g' → keySyncB g = true → keySyncB g' = true) ∧
    (∀ g a b g', removeArc g a b = some g' → keySyncB g = true → keySyncB g' = true) ∧
    (∀ g n g', removeNode g n = some g' → keySyncB g = true → keySyncB g' = true) ∧
    (∀ g o n g', renameNode g o n = some g' → keySyncB g = true → keySyncB g' = true) := by
  refine ⟨by decide, ?_, ?_, ?_, ?_, ?_, ?_, ?_, ?_⟩
  · intro g n g' h hinv
    obtain ⟨hks, hcl, hps⟩ := (graphInv_iff g).mp hinv
    exact (graphInv_iff g').mpr (addNode_preserves h hks hcl hps)
  · intro g a b g' h hinv
    obtain ⟨hks, hcl, hps⟩ := (graphInv_iff g).mp hinv
    exact (graphInv_iff g').mpr (addArc_preserves h hks hcl hps)
  · intro g a b g' h hinv
    obtain ⟨hks, hcl, hps⟩ := (graphInv_iff g).mp hinv
    exact (graphInv_iff g').mpr (removeArc_preserves h hks hcl hps)
  · intro g n g' h hks
    exact (keySyncB_iff g').mpr (addNode_preserves_keySync h ((keySyncB_iff g).mp hks))
  · intro g a b g' h hks
    exact (keySyncB_iff g').mpr (addArc_preserves_keySync h ((keySyncB_iff g).mp hks))
  · intro g a b g' h hks
    exact (keySyncB_iff g').mpr (removeArc_preserves_keySync h ((keySyncB_iff g).mp hks))
  · intro g n g' h hks
    exact (keySyncB_iff g').mpr (removeNode_preserves_keySync h ((keySyncB_iff g).mp hks))
  · intro g o n g' h hks
    exact (keySyncB_iff g').mpr (renameNode_preserves_keySync h ((keySyncB_iff g).mp hks))

/-- Concrete instantiation of `graph_ops_invariant_amended`: each part
with hypotheses applied at a small graph, every hypothesis discharged by
evaluation.  The key-sync conclusions for `add_node`, `add_arc` and
`remove_arc` are obtained from states that satisfy key sync but *not* the
full invariant (a dangling member left by a prior `remove_node`), the
very states the reachable-state argument needs. -/
theorem graph_ops_invariant_amended_witness :
    graphInv (Graph.mk [("a", [])] [("a", [])]) = true ∧
    graphInv (Graph.mk [("a", ["a"])] [("a", ["a"])]) = true ∧
    graphInv (Graph.mk [("a", [])] [("a", [])]) = true ∧
    keySyncB (Graph.mk [("a", ["b"]), ("c", [])] [("a", []), ("c", [])]) = true ∧
    keySyncB (Graph.mk [("a", ["b", "c"]), ("c", [])] [("a", []), ("c", ["a"])]) = true ∧
    keySyncB (Graph.mk [("a", ["b"]), ("c", [])] [("a", []), ("c", [])]) = true ∧
    keySyncB (Graph.mk [] []) = true ∧
    keySyncB (Graph.mk [("b", ["b"])] [("b", ["b"])]) = true := by
  refine ⟨?_, ?_, ?_, ?_, ?_, ?_, ?_, ?_⟩
  · exact graph_ops_invariant_amended.2.1 emptyGraph "a"
      (Graph.mk [("a", [])] [("a", [])]) (by decide) (by decide)
  · exact graph_ops_invariant_amended.2.2.1 (Graph.mk [("a", [])] [("a", [])]) "a" "a"
      (Graph.mk [("a", ["a"])] [("a", ["a"])]) (by decide) (by decide)
  · exact graph_ops_invariant_amended.2.2.2.1 (Graph.mk [("a", ["a"])] [("a", ["a"])]) "a" "a"
      (Graph.mk [("a", [])] [("a", [])]) (by decide) (by decide)
  · exact graph_ops_invariant_amended.2.2.2.2.1 (Graph.mk [("a", ["b"])] [("a", [])]) "c"
      (Graph.mk [("a", ["b"]), ("c", [])] [("a", []), ("c", [])]) (by decide) (by decide)
  · exact graph_ops_invariant_amended.2.2.2.2.2.1
      (Graph.mk [("a", ["b"]), ("c", [])] [("a", []), ("c", [])]) "a" "c"
      (Graph.mk [("a", ["b", "c"]), ("c", [])] [("a", []), ("c", ["a"])])
      (by decide) (by decide)
  · exact graph_ops_invariant_amended.2.2.2.2.2.2.1
      (Graph.mk [("a", ["b", "c"]), ("c", [])] [("a", []), ("c", ["a"])]) "a" "c"
      (Graph.mk [("a", ["b"]), ("c", [])] [("a", []), ("c", [])])
      (by decide) (by decide)
  · exact graph_ops_invariant_amended.2.2.2.2.2.2.2.1
      (Graph.mk [("a", [])] [("a", [])]) "a"
      (Graph.mk [] []) (by decide) (by decide)
  · exact graph_ops_invariant_amended.2.2.2.2.2.2.2.2
      (Graph.mk [("a", [])] [("a", [])]) "a" "b"
      (Graph.mk [("b", ["b"])] [("b", ["b"])]) (by decide) (by decide)

/-! ### Datastore mapper (claim C5) -/

theorem dsPush_no_collapse {acc : List String} {n : String}
    (h : ∀ x y t, acc = x :: y :: t →
      ¬(isSemanticName y = true ∧ isSemanticName x = true)) :
    dsPush acc n = n :: acc := by
  match acc with
  | [] => rfl
  | [x] => rfl
  | x :: y :: t =>
    show (if (isSemanticName y && isSemanticName x) = true then n :: y :: t
          else n :: x :: y :: t) = n :: x :: y :: t
    rw [if_neg]
    intro hc
    rw [Bool.and_eq_true] at hc
    exact h x y t rfl hc

theorem dsPush_collapse {x y : String} {t : List String} {n : String}
    (hy : isSemanticName y = true) (hx : isSemanticName x = true) :
    dsPush (x :: y :: t) n = n :: y :: t := by
  show (if (isSemanticName y && isSemanticName x) = true then n :: y :: t
        else n :: x :: y :: t) = n :: y :: t
  rw [if_pos]
  rw [Bool.and_eq_true]
  exact ⟨hy, hx⟩

theorem dsFold_verbatim :
    ∀ (l acc : List String),
      List.Chain' (fun a b => ¬(isSemanticName a = true ∧ isSemanticName b = true))
        ((acc.take 2).reverse ++ l.dropLast) →
      l.foldl dsPush acc = l.reverse ++ acc := by
  intro l
  induction l with
  | nil => intro acc h; rfl
  | cons n rest ih =>
    intro acc h
    have hstep : dsPush acc n = n :: acc := by
      apply dsPush_no_collapse
      intro x y t hacc
      subst hacc
      have h2 : List.Chain'
          (fun a b => ¬(isSemanticName a = true ∧ isSemanticName b = true))
          (y :: x :: (n :: rest).dropLast) := h
      exact (List.chain'_cons.mp h2).1
    rw [List.foldl_cons, hstep]
    cases rest with
    | nil => rfl
    | cons m rest2 =>
      have hnext : List.Chain'
          (fun a b => ¬(isSemanticName a = true ∧ isSemanticName b = true))
          (((n :: acc).take 2).reverse ++ (m :: rest2).dropLast) := by
        cases acc with
        | nil =>
          exact h
        | cons x t =>
          cases t with
          | nil =>
            exact h
          | cons y t2 =>
            have h2 : List.Chain'
                (fun a b => ¬(isSemanticName a = true ∧ isSemanticName b = true))
                (y :: x :: n :: (m :: rest2).dropLast) := h
            exact h2.tail
      have hres := ih (n :: acc) hnext
      rw [hres]
      simp

theorem dsFold_semrun_aux (t : String) (b : String) (r : List String)
    (ht : isSemanticName t = true) :
    ∀ (ts : List String) (cur : String), isSemanticName cur = true →
      (∀ s ∈ ts, isSemanticName s = true) →
      ts.foldl dsPush (cur :: t :: b :: r) = ts.getLastD cur :: t :: b :: r := by
  intro ts
  induction ts with
  | nil => intro cur _ _; rfl
  | cons m ts2 ih =>
    intro cur hcur hall
    rw [List.foldl_cons, dsPush_collapse ht hcur, List.getLastD_cons]
    exact ih m (hall m (by simp)) (fun s hs => hall s (by simp [hs]))

theorem dsFold_semrun (b : String) (r : List String) (hb : isSemanticName b = false)
    (t : String) (ht : isSemanticName t = true) :
    ∀ ts : List String, (∀ s ∈ ts, isSemanticName s = true) →
      (t :: ts).foldl dsPush (b :: r) =
        (match ts with
         | [] => t :: b :: r
         | m :: ts2 => ts2.getLastD m :: t :: b :: r) := by
  intro ts hall
  have hstep : dsPush (b :: r) t = t :: b :: r := by
    apply dsPush_no_collapse
    intro x y t2 hacc
    intro hc
    have hxb : b = x := by injection hacc
    rw [← hxb] at hc
    rw [hb] at hc
    exact absurd hc.2 (by simp)
  rw [List.foldl_cons, hstep]
  cases ts with
  | nil => rfl
  | cons m ts2 =>
    have hstep2 : dsPush (t :: b :: r) m = m :: t :: b :: r := by
      apply dsPush_no_collapse
      intro x y t3 hacc
      intro hc
      have hyb : b = y := by injection hacc with h1 h2; injection h2
      rw [← hyb, hb] at hc
      exact absurd hc.1 (by simp)
    rw [List.foldl_cons, hstep2]
    exact dsFold_semrun_aux t b r ht ts2 m (hall m (by simp))
      (fun s hs => hall s (by simp [hs]))

theorem dsFold_keeps_root :
    ∀ (l m : List String) (c : String),
      ∃ m2, l.foldl dsPush (m ++ [c, ""]) = m2 ++ [c, ""] := by
  intro l
  induction l with
  | nil => intro m c; exact ⟨m, rfl⟩
  | cons n rest ih =>
    intro m c
    have hstep : ∃ m3, dsPush (m ++ [c, ""]) n = m3 ++ [c, ""] := by
      match m with
      | [] =>
        refine ⟨[n], ?_⟩
        show (if (isSemanticName "" && isSemanticName c) = true then n :: [""]
              else n :: c :: [""]) = [n] ++ [c, ""]
        rw [if_neg]
        · rfl
        · rw [Bool.and_eq_true]
          rintro ⟨h1, _⟩
          exact absurd h1 (by simp [isSemanticName])
      | [z] =>
        by_cases hc : (isSemanticName c && isSemanticName z) = true
        · refine ⟨[n], ?_⟩
          show (if (isSemanticName c && isSemanticName z) = true then n :: c :: [""]
                else n :: z :: c :: [""]) = [n] ++ [c, ""]
          rw [if_pos hc]
          rfl
        · refine ⟨[n, z], ?_⟩
          show (if (isSemanticName c && isSemanticName z) = true then n :: c :: [""]
                else n :: z :: c :: [""]) = [n, z] ++ [c, ""]
          rw [if_neg hc]
          rfl
      | z1 :: z2 :: mrest =>
        by_cases hc : (isSemanticName z2 && isSemanticName z1) = true
        · refine ⟨n :: z2 :: mrest, ?_⟩
          show (if (isSemanticName z2 && isSemanticName z1) = true
                then n :: z2 :: (mrest ++ [c, ""])
                else n :: z1 :: z2 :: (mrest ++ [c, ""])) =
              (n :: z2 :: mrest) ++ [c, ""]
          rw [if_pos hc]
          rfl
        · refine ⟨n :: z1 :: z2 :: mrest, ?_⟩
          show (if (isSemanticName z2 && isSemanticName z1) = true
                then n :: z2 :: (mrest ++ [c, ""])
                else n :: z1 :: z2 :: (mrest ++ [c, ""])) =
              (n :: z1 :: z2 :: mrest) ++ [c, ""]
          rw [if_neg hc]
          rfl
    obtain ⟨m3, hm3⟩ := hstep
    rw [List.foldl_cons, hm3]
    exact ih m3 c

/-- Claim C5, counterexample: neither tag-only nor entry-point-only paths
are preserved by the datastore mapper in general.  The tag path
`/a/_b/_c/_d` (entry point `/a/_b`, tag chain `_c, _d`) maps to
`dsroot/a/_b/_d` — as the docstring of `_datastore_path` itself shows —
and the entry-point path `/a/_b/_c/d/_e` (`is_entrypoint` per
`pathinfo.py`'s own docstring) maps to `dsroot/a/_b/d/_e`: any two
adjacent semantic components before the last component collapse,
whatever the path's kind. -/
theorem datastore_tag_path_not_preserved :
    (pathInfoOfComponents ["", "a", "_b", "_c", "_d"]).isTag = true ∧
    datastoreComponents ["", "a", "_b", "_c", "_d"] = ["", "a", "_b", "_d"] ∧
    datastorePath "dsroot" ["", "a", "_b", "_c", "_d"] = "dsroot/a/_b/_d" ∧
    datastoreComponents ["", "a", "_b", "_c", "_d"] ≠ ["", "a", "_b", "_c", "_d"] ∧
    (pathInfoOfComponents ["", "a", "_b", "_c", "d", "_e"]).isEntrypoint = true ∧
    datastoreComponents ["", "a", "_b", "_c", "d", "_e"] = ["", "a", "_b", "d", "_e"] ∧
    datastorePath "dsroot" ["", "a", "_b", "_c", "d", "_e"] = "dsroot/a/_b/d/_e" ∧
    datastoreComponents ["", "a", "_b", "_c", "d", "_e"] ≠
      ["", "a", "_b", "_c", "d", "_e"] := by
  decide

/-- Claim C5, amended.  The mapper scans left to right, dropping the
previous pending component whenever the two most recently kept components
are both semantic.  Consequently: (1) a path in which no two *adjacent*
components before the last are both semantic is preserved unchanged (this
covers entry-point paths and chain-length-1 tag paths whose prefix has no
adjacent semantic pair, such as `/a/_b` and `/a/_b/_c`, but *not* paths
with internal adjacent semantic pairs, which collapse whatever their
kind); (2) for a prefix with no adjacent semantic pair ending in a
non-semantic component, followed by a non-empty run of semantic
components `t₁ … tₙ` and a non-semantic object `x`, the path collapses to
`prefix/t₁/x`; (3) the same shape without the object and with `n ≥ 2`
collapses to `prefix/t₁/tₙ` (not preserved); (4) the first two components
(root and first child) are never collapsed. -/
theorem datastore_path_spec :
    (∀ cs : List String,
      List.Chain' (fun a b => ¬(isSemanticName a = true ∧ isSemanticName b = true))
        cs.dropLast →
      datastoreComponents cs = cs) ∧
    (∀ (base : List String) (e : String) (t : String) (ts : List String) (x : String),
      List.Chain' (fun a b => ¬(isSemanticName a = true ∧ isSemanticName b = true))
        base →
      isSemanticName e = false → isSemanticName t = true →
      (∀ s ∈ ts, isSemanticName s = true) → isSemanticName x = false →
      datastoreComponents (base ++ [e] ++ (t :: ts) ++ [x]) = base ++ [e] ++ [t, x]) ∧
    (∀ (base : List String) (e : String) (t m : String) (ts : List String),
      List.Chain' (fun a b => ¬(isSemanticName a = true ∧ isSemanticName b = true))
        base →
      isSemanticName e = false → isSemanticName t = true →
      isSemanticName m = true → (∀ s ∈ ts, isSemanticName s = true) →
      datastoreComponents (base ++ [e] ++ (t :: m :: ts)) =
        base ++ [e] ++ [t, ts.getLastD m]) ∧
    (∀ (c : String) (rest : List String),
      (datastoreComponents ("" :: c :: rest)).take 2 = ["", c]) := by
  refine ⟨?_, ?_, ?_, ?_⟩
  · intro cs h
    unfold datastoreComponents
    rw [dsFold_verbatim cs [] h]
    simp
  · intro base e t ts x hbase he ht hts hx
    unfold datastoreComponents
    rw [show base ++ [e] ++ (t :: ts) ++ [x] = (base ++ [e]) ++ ((t :: ts) ++ [x]) by simp,
      List.foldl_append, List.foldl_append]
    rw [dsFold_verbatim (base ++ [e]) []
      (by rw [show (base ++ [e]).dropLast = base from List.dropLast_concat]; exact hbase)]
    rw [List.append_nil]
    rw [show (base ++ [e]).reverse = e :: base.reverse by simp]
    rw [dsFold_semrun e base.reverse he t ht ts hts]
    cases ts with
    | nil =>
      rw [show (([x] : List String).foldl dsPush (t :: e :: base.reverse)) =
        dsPush (t :: e :: base.reverse) x from rfl]
      rw [dsPush_no_collapse (by
        intro a1 a2 a3 hacc hc
        have h1 : t = a1 := by injection hacc
        have h2 : e = a2 := by
          injection hacc with hh1 hh2
          injection hh2
        rw [← h2, he] at hc
        exact absurd hc.1 (by simp))]
      simp
    | cons m ts2 =>
      have hL : isSemanticName (ts2.getLastD m) = true := by
        have hmem : ts2.getLastD m ∈ m :: ts2 := List.getLastD_mem_cons ts2 m
        rcases List.mem_cons.mp hmem with h1 | h1
        · rw [h1]; exact hts m (by simp)
        · exact hts _ (List.mem_cons_of_mem m h1)
      rw [show (([x] : List String).foldl dsPush
        (ts2.getLastD m :: t :: e :: base.reverse)) =
        dsPush (ts2.getLastD m :: t :: e :: base.reverse) x from rfl]
      rw [dsPush_collapse ht hL]
      simp
  · intro base e t m ts hbase he ht hm hts
    unfold datastoreComponents
    rw [show base ++ [e] ++ (t :: m :: ts) = (base ++ [e]) ++ (t :: m :: ts) by simp,
      List.foldl_append]
    rw [dsFold_verbatim (base ++ [e]) []
      (by rw [show (base ++ [e]).dropLast = base from List.dropLast_concat]; exact hbase)]
    rw [List.append_nil]
    rw [show (base ++ [e]).reverse = e :: base.reverse by simp]
    rw [dsFold_semrun e base.reverse he t ht (m :: ts)
      (by intro s hs
          rcases List.mem_cons.mp hs with h1 | h1
          · rw [h1]; exact hm
          · exact hts s h1)]
    simp
  · intro c rest
    unfold datastoreComponents
    rw [show (("" :: c :: rest : List String).foldl dsPush []) =
      rest.foldl dsPush ([] ++ [c, ""]) from rfl]
    obtain ⟨m2, hm2⟩ := dsFold_keeps_root rest [] c
    rw [hm2]
    rw [List.reverse_append]
    rfl

/-! ### Interval tree lemmas (claims C1 and C10) -/

theorem covers_nil (p : Nat) : covers [] p ↔ False := by
  simp [covers]

theorem covers_cons (i : Nat × Nat) (t : List (Nat × Nat)) (p : Nat) :
    covers (i :: t) p ↔ (i.1 ≤ p ∧ p < i.2) ∨ covers t p := by
  simp [covers, List.mem_cons, or_and_right, exists_or]

theorem covers_single (u v p : Nat) : covers [(u, v)] p ↔ u ≤ p ∧ p < v := by
  rw [covers_cons]
  simp [covers_nil]

theorem covers_append (l1 l2 : List (Nat × Nat)) (p : Nat) :
    covers (l1 ++ l2) p ↔ covers l1 p ∨ covers l2 p := by
  unfold covers
  constructor
  · rintro ⟨i, hi, hp⟩
    rcases List.mem_append.mp hi with h1 | h1
    · exact Or.inl ⟨i, h1, hp⟩
    · exact Or.inr ⟨i, h1, hp⟩
  · rintro (⟨i, hi, hp⟩ | ⟨i, hi, hp⟩)
    · exact ⟨i, List.mem_append.mpr (Or.inl hi), hp⟩
    · exact ⟨i, List.mem_append.mpr (Or.inr hi), hp⟩

theorem covers_ite (c : Prop) [Decidable c] (l : List (Nat × Nat)) (p : Nat) :
    covers (if c then l else []) p ↔ c ∧ covers l p := by
  by_cases h : c
  · simp [h]
  · simp [h, covers_nil]

theorem covers_chop (t : List (Nat × Nat)) (a b p : Nat) :
    covers (chop t a b) p ↔ covers t p ∧ ¬(a ≤ p ∧ p < b) := by
  induction t with
  | nil => simp [chop, covers_nil]
  | cons i rest ih =>
    have hstep : chop (i :: rest) a b =
        (if i.1 < a then [(i.1, min i.2 a)] else []) ++
          ((if b < i.2 then [(max i.1 b, i.2)] else []) ++ chop rest a b) := by
      unfold chop
      rw [List.foldr_cons, List.append_assoc]
    rw [hstep, covers_append, covers_append, ih, covers_cons, covers_ite, covers_ite,
      covers_single, covers_single]
    by_cases hP : covers rest p <;> simp [hP] <;> omega

theorem treeEnd_cons (i : Nat × Nat) (t : List (Nat × Nat)) :
    treeEnd (i :: t) = max i.2 (treeEnd t) := rfl

theorem treeEnd_append (l1 l2 : List (Nat × Nat)) :
    treeEnd (l1 ++ l2) = max (treeEnd l1) (treeEnd l2) := by
  induction l1 with
  | nil => simp [treeEnd]
  | cons i t ih =>
    rw [List.cons_append, treeEnd_cons, treeEnd_cons, ih, Nat.max_assoc]

theorem mem_end_le_treeEnd {i : Nat × Nat} {t : List (Nat × Nat)} (h : i ∈ t) :
    i.2 ≤ treeEnd t := by
  induction t with
  | nil => cases h
  | cons j t ih =>
    rw [treeEnd_cons]
    rcases List.mem_cons.mp h with h1 | h1
    · rw [h1]; exact Nat.le_max_left _ _
    · exact Nat.le_trans (ih h1) (Nat.le_max_right _ _)

theorem treeEnd_le_of_forall {t : List (Nat × Nat)} {m : Nat}
    (h : ∀ i ∈ t, i.2 ≤ m) : treeEnd t ≤ m := by
  induction t with
  | nil => exact Nat.zero_le m
  | cons i t ih =>
    rw [treeEnd_cons]
    exact Nat.max_le.mpr ⟨h i (by simp), ih (fun j hj => h j (by simp [hj]))⟩

theorem treeEnd_chop_le (t : List (Nat × Nat)) (a b : Nat) :
    treeEnd (chop t a b) ≤ treeEnd t := by
  induction t with
  | nil => exact Nat.le_refl _
  | cons i rest ih =>
    have hstep : chop (i :: rest) a b =
        (if i.1 < a then [(i.1, min i.2 a)] else []) ++
          ((if b < i.2 then [(max i.1 b, i.2)] else []) ++ chop rest a b) := by
      unfold chop
      rw [List.foldr_cons, List.append_assoc]
    rw [hstep, treeEnd_append, treeEnd_append, treeEnd_cons]
    have h1 : treeEnd (if i.1 < a then [(i.1, min i.2 a)] else []) ≤ i.2 := by
      by_cases hc : i.1 < a
      · rw [if_pos hc]
        show max (min i.2 a) 0 ≤ i.2
        omega
      · rw [if_neg hc]
        exact Nat.zero_le _
    have h2 : treeEnd (if b < i.2 then [(max i.1 b, i.2)] else []) ≤ i.2 := by
      by_cases hc : b < i.2
      · rw [if_pos hc]
        show max i.2 0 ≤ i.2
        omega
      · rw [if_neg hc]
        exact Nat.zero_le _
    omega

theorem chop_end_bound (t : List (Nat × Nat)) (a b : Nat) :
    ∀ i ∈ t, i.2 ≤ max (treeEnd (chop t a b)) b := by
  induction t with
  | nil => intro i h; cases h
  | cons j rest ih =>
    intro i h
    have hstep : chop (j :: rest) a b =
        (if j.1 < a then [(j.1, min j.2 a)] else []) ++
          ((if b < j.2 then [(max j.1 b, j.2)] else []) ++ chop rest a b) := by
      unfold chop
      rw [List.foldr_cons, List.append_assoc]
    rcases List.mem_cons.mp h with h1 | h1
    · by_cases hc : b < j.2
      · have hmem : (max j.1 b, j.2) ∈ chop (j :: rest) a b := by
          rw [hstep]
          refine List.mem_append.mpr (Or.inr (List.mem_append.mpr (Or.inl ?_)))
          rw [if_pos hc]
          exact List.mem_singleton.mpr rfl
        have := mem_end_le_treeEnd hmem
        rw [h1]
        exact Nat.le_trans this (Nat.le_max_left _ _)
      · rw [h1]
        exact Nat.le_trans (Nat.le_of_not_lt hc) (Nat.le_max_right _ _)
    · have hrest := ih i h1
      have hmono : treeEnd (chop rest a b) ≤ treeEnd (chop (j :: rest) a b) := by
        rw [hstep, treeEnd_append, treeEnd_append]
        omega
      omega

theorem pointQuery_some {t : List (Nat × Nat)} {p : Nat} {i : Nat × Nat}
    (h : pointQuery t p = some i) : i ∈ t ∧ i.1 ≤ p ∧ p < i.2 := by
  unfold pointQuery at h
  refine ⟨List.mem_of_find?_eq_some h, ?_⟩
  have hpred := List.find?_some h
  simpa using hpred

theorem chopFrom_le (t : List (Nat × Nat)) (s : Nat) : chopFrom t s ≤ s := by
  unfold chopFrom
  by_cases hs : s = 0
  · rw [if_pos hs]
    simp
  · rw [if_neg hs]
    cases hq : pointQuery t (s - 1) with
    | none => simp
    | some i =>
      have := (pointQuery_some hq).2.1
      simp only [Option.map_some', Option.getD_some]
      omega

theorem chopTo_ge (t : List (Nat × Nat)) (e : Nat) : e ≤ chopTo t e := by
  unfold chopTo
  cases hq : pointQuery t e with
  | none => simp
  | some i =>
    have := (pointQuery_some hq).2.2
    simp only [Option.map_some', Option.getD_some]
    omega

theorem chopFrom_margin (t : List (Nat × Nat)) (s : Nat) :
    ∀ q, chopFrom t s ≤ q → q < s → covers t q := by
  unfold chopFrom
  by_cases hs : s = 0
  · rw [if_pos hs]
    intro q h1 h2
    rw [hs] at h2
    exact absurd h2 (by omega)
  · rw [if_neg hs]
    cases hq : pointQuery t (s - 1) with
    | none =>
      intro q h1 h2
      simp only [Option.map_none', Option.getD_none] at h1
      exact absurd h2 (by omega)
    | some i =>
      intro q h1 h2
      simp only [Option.map_some', Option.getD_some] at h1
      obtain ⟨hmem, hle, hlt⟩ := pointQuery_some hq
      exact ⟨i, hmem, h1, by omega⟩

theorem chopTo_margin (t : List (Nat × Nat)) (e : Nat) :
    ∀ q, e ≤ q → q < chopTo t e → covers t q := by
  unfold chopTo
  cases hq : pointQuery t e with
  | none =>
    intro q h1 h2
    simp only [Option.map_none', Option.getD_none] at h2
    exact absurd h2 (by omega)
  | some i =>
    intro q h1 h2
    simp only [Option.map_some', Option.getD_some] at h2
    obtain ⟨hmem, hle, hlt⟩ := pointQuery_some hq
    exact ⟨i, hmem, by omega, h2⟩

theorem chopTo_le (t : List (Nat × Nat)) (e : Nat) :
    chopTo t e ≤ max (treeEnd t) e := by
  unfold chopTo
  cases hq : pointQuery t e with
  | none => simp
  | some i =>
    have := mem_end_le_treeEnd (pointQuery_some hq).1
    simp only [Option.map_some', Option.getD_some]
    omega

theorem optimizedAdd_some_of_lt {t : List (Nat × Nat)} {s e : Nat} (h : s < e) :
    optimizedAdd t s e =
      some (chop t (chopFrom t s) (chopTo t e) ++ [(chopFrom t s, chopTo t e)]) := by
  unfold optimizedAdd
  rw [if_pos]
  have h1 := chopFrom_le t s
  have h2 := chopTo_ge t e
  omega

theorem optimizedAdd_some_inv {t : List (Nat × Nat)} {s e : Nat}
    {t2 : List (Nat × Nat)} (h : optimizedAdd t s e = some t2) :
    t2 = chop t (chopFrom t s) (chopTo t e) ++ [(chopFrom t s, chopTo t e)] ∧
      chopFrom t s < chopTo t e := by
  unfold optimizedAdd at h
  by_cases hc : chopFrom t s < chopTo t e
  · rw [if_pos hc] at h
    exact ⟨(Option.some.inj h).symm, hc⟩
  · rw [if_neg hc] at h
    cases h

theorem covers_optimizedAdd {t : List (Nat × Nat)} {s e : Nat}
    {t2 : List (Nat × Nat)} (h : optimizedAdd t s e = some t2) (p : Nat) :
    covers t2 p ↔ covers t p ∨ (s ≤ p ∧ p < e) := by
  obtain ⟨ht2, hlt⟩ := optimizedAdd_some_inv h
  rw [ht2, covers_append, covers_chop, covers_single]
  have hcf := chopFrom_le t s
  have hct := chopTo_ge t e
  have hm1 := chopFrom_margin t s p
  have hm2 := chopTo_margin t e p
  constructor
  · rintro (⟨hc, _⟩ | ⟨h1, h2⟩)
    · exact Or.inl hc
    · by_cases hs : s ≤ p
      · by_cases he : p < e
        · exact Or.inr ⟨hs, he⟩
        · exact Or.inl (hm2 (by omega) (by omega))
      · exact Or.inl (hm1 h1 (by omega))
  · rintro (hc | ⟨h1, h2⟩)
    · by_cases hin : chopFrom t s ≤ p ∧ p < chopTo t e
      · exact Or.inr hin
      · exact Or.inl ⟨hc, hin⟩
    · exact Or.inr ⟨by omega, by omega⟩

theorem treeEnd_optimizedAdd {t : List (Nat × Nat)} {s e : Nat}
    {t2 : List (Nat × Nat)} (h : optimizedAdd t s e = some t2) :
    treeEnd t2 = max (treeEnd t) e := by
  obtain ⟨ht2, hlt⟩ := optimizedAdd_some_inv h
  rw [ht2, treeEnd_append]
  have hchople := treeEnd_chop_le t (chopFrom t s) (chopTo t e)
  have hbound := chop_end_bound t (chopFrom t s) (chopTo t e)
  have hub : treeEnd t ≤ max (treeEnd (chop t (chopFrom t s) (chopTo t e))) (chopTo t e) :=
    treeEnd_le_of_forall (fun i hi => hbound i hi)
  have hctle := chopTo_le t e
  have hctge := chopTo_ge t e
  have hsingle : treeEnd [(chopFrom t s, chopTo t e)] = max (chopTo t e) 0 := rfl
  omega

/-! ### GhostFile claim theorems (C1 and C10) -/

/-- Claim C1, counterexample: a write of the *empty* buffer at offset 0 on
an empty file satisfies the same-data fast-path conditions
(`offset + len(buf) ≤ physical size` and the bytes match), yet the call
does not return `len(buf) = 0`: `_optimized_add_to_intervaltree` finds no
adjacent interval and tries to insert the null interval `[0, 0)`, which
the interval library rejects with a `ValueError`. -/
theorem ghostfile_empty_write_errors :
    (0 + List.length ([] : List Nat) ≤ List.length ([] : List Nat) ∧
      sameData [] [] 0) ∧
    ghostWrite (ghostInit []) [] [] 0 = none := by
  refine ⟨by decide, by decide⟩

/-- Claim C1, amended: for every *non-empty* `buf`, if
`offset + len(buf)` is at most the physical size and the physical bytes at
`[offset, offset + len(buf))` equal `buf`, then `write` performs no
physical write (the file contents are returned unchanged), records exactly
the range `[offset, offset + len(buf))` in the rewritten-interval tree
(the covered byte set becomes the union of the old one and that range,
with adjacent and overlapping intervals absorbed into a single interval),
sets `filesize` to `max(filesize, offset + len(buf))`, and returns
`len(buf)`. -/
theorem ghostfile_write_same_data_fast_path
    (st : GhostState) (phys buf : List Nat) (offset : Nat)
    (hne : buf ≠ [])
    (hfit : offset + buf.length ≤ phys.length)
    (hsame : sameData phys buf offset) :
    ghostWrite st phys buf offset =
      some ({ filesize := max st.filesize (offset + buf.length),
              intervals := (optimizedAdd st.intervals offset (offset + buf.length)).getD [] },
        phys, buf.length) ∧
    ∀ p, covers ((optimizedAdd st.intervals offset (offset + buf.length)).getD []) p ↔
      covers st.intervals p ∨ (offset ≤ p ∧ p < offset + buf.length) := by
  have hlt : offset < offset + buf.length := by
    cases buf with
    | nil => exact absurd rfl hne
    | cons b bs => simp
  have hadd := optimizedAdd_some_of_lt (t := st.intervals) hlt
  constructor
  · unfold ghostWrite
    rw [if_pos ⟨hfit, hsame⟩, hadd]
    rfl
  · intro p
    rw [hadd]
    exact covers_optimizedAdd hadd p

theorem ghostfile_write_same_data_fast_path_witness :
    ghostWrite { filesize := 1, intervals := [(0, 1)] } [65] [65] 0 =
      some ({ filesize := 1, intervals := [(0, 1)] }, [65], 1) ∧
    (covers [(0, 1)] 0 ↔ covers [(0, 1)] 0 ∨ (0 ≤ 0 ∧ 0 < 1)) := by
  have h := ghostfile_write_same_data_fast_path
    { filesize := 1, intervals := [(0, 1)] } [65] [65] 0
    (by decide) (by decide) (by decide)
  constructor
  · rw [h.1]
    decide
  · exact h.2 0

/-- Claim C10, counterexample: the assertion
`filesize == rewritten_intervals.end()` closing the same-data fast path of
`write` can fail on a reachable state.  On a 1-byte file, `truncate(2)`
followed by a same-data write of that byte at offset 0 takes the fast path
and leaves `filesize = 2` while the intervals end at `1`. -/
theorem ghostfile_truncate_then_same_write_assert_fails :
    ghostTruncate (ghostInit [65]) 2 = { filesize := 2, intervals := [(0, 1)] } ∧
    (0 + List.length [65] ≤ List.length [65] ∧ sameData [65] [65] 0) ∧
    ghostWrite { filesize := 2, intervals := [(0, 1)] } [65] [65] 0 =
      some ({ filesize := 2, intervals := [(0, 1)] }, [65], 1) ∧
    ¬ writeFastAssert { filesize := 2, intervals := [(0, 1)] } := by
  refine ⟨by decide, by decide, by decide, by decide⟩

/-- Claim C10, amended: the fast-path assertion holds after any same-data
fast-path write from a state satisfying `treeEnd ≤ filesize` (the
invariant the code maintains everywhere) *provided additionally*
`filesize ≤ max(treeEnd, offset + len(buf))` — i.e. unless a truncate has
pushed `filesize` strictly beyond both the recorded intervals' end and the
end of the current write, which is exactly the situation of the
counterexample. -/
theorem ghostfile_fast_path_assert_conditional
    (st : GhostState) (phys buf : List Nat) (offset : Nat)
    (hne : buf ≠ [])
    (hfit : offset + buf.length ≤ phys.length)
    (hsame : sameData phys buf offset)
    (hinv : treeEnd st.intervals ≤ st.filesize)
    (hcond : st.filesize ≤ max (treeEnd st.intervals) (offset + buf.length)) :
    ∀ st2 phys2 r, ghostWrite st phys buf offset = some (st2, phys2, r) →
      writeFastAssert st2 := by
  intro st2 phys2 r hw
  have hlt : offset < offset + buf.length := by
    cases buf with
    | nil => exact absurd rfl hne
    | cons b bs => simp
  have hadd := optimizedAdd_some_of_lt (t := st.intervals) hlt
  unfold ghostWrite at hw
  rw [if_pos ⟨hfit, hsame⟩, hadd] at hw
  have hpair := Option.some.inj hw
  have hst2 : GhostState.mk (max st.filesize (offset + buf.length))
      (chop st.intervals (chopFrom st.intervals offset)
          (chopTo st.intervals (offset + buf.length)) ++
        [(chopFrom st.intervals offset, chopTo st.intervals (offset + buf.length))]) =
      st2 := congrArg Prod.fst hpair
  rw [← hst2]
  unfold writeFastAssert
  have hte := treeEnd_optimizedAdd hadd
  show max st.filesize (offset + buf.length) =
    treeEnd (chop st.intervals (chopFrom st.intervals offset)
        (chopTo st.intervals (offset + buf.length)) ++
      [(chopFrom st.intervals offset, chopTo st.intervals (offset + buf.length))])
  rw [hte]
  omega

theorem ghostfile_fast_path_assert_conditional_witness :
    writeFastAssert { filesize := 1, intervals := [(0, 1)] } :=
  ghostfile_fast_path_assert_conditional
    { filesize := 1, intervals := [(0, 1)] } [65] [65] 0
    (by decide) (by decide) (by decide) (by decide) (by decide)
    { filesize := 1, intervals := [(0, 1)] } [65] 1 (by decide)

/-- Concrete instantiation of `datastore_path_spec`: each part applied at
a small path, all hypotheses discharged by evaluation. -/
theorem datastore_path_spec_witness :
    datastoreComponents ["", "a", "_b", "_c"] = ["", "a", "_b", "_c"] ∧
    datastoreComponents ["", "a", "_b", "_c", "x"] = ["", "a", "_b", "x"] ∧
    datastoreComponents ["", "a", "_b", "_c", "_d"] = ["", "a", "_b", "_d"] ∧
    (datastoreComponents ["", "a", "_b"]).take 2 = ["", "a"] := by
  refine ⟨?_, ?_, ?_, ?_⟩
  · exact datastore_path_spec.1 ["", "a", "_b", "_c"]
      (List.chain'_cons.mpr ⟨by decide,
        List.chain'_cons.mpr ⟨by decide, List.chain'_singleton _⟩⟩)
  · exact datastore_path_spec.2.1 [""] "a" "_b" ["_c"] "x"
      (List.chain'_singleton _) (by decide) (by decide) (by decide) (by decide)
  · exact datastore_path_spec.2.2.1 [""] "a" "_b" "_c" ["_d"]
      (List.chain'_singleton _) (by decide) (by decide) (by decide) (by decide)
  · exact datastore_path_spec.2.2.2 "a" ["_b"]

end GFS
